import Mathlib

/-!
Verification development for the `relmatch` record-linkage engine
(`src/relmatch/comparators.py`, `registry.py`, `models.py`, `engine.py`).

The embedding models Python scalar values as an inductive `Value`, records as
association lists, and fallible Python code as `Except PyErr`.  Python floats
are modelled as exact rationals (`ℚ`); float rounding never decides any of the
control flow exercised by the claims, which compare scores produced from small
integer-valued arithmetic.  Rational arithmetic is implemented through the
reducible smart constructors `mkRat` / `Rat.divInt` (the library `Rat.add` /
`Rat.mul` / `Rat.inv` are `@[irreducible]`); bridge lemmas below prove the
helpers equal to the ordinary field operations on `ℚ`.
-/

/-- Reducible addition on `ℚ` (equals `a + b`, see `qadd_eq`). -/
def qadd (a b : ℚ) : ℚ := mkRat (a.num * b.den + b.num * a.den) (a.den * b.den)

/-- Reducible multiplication on `ℚ` (equals `a * b`, see `qmul_eq`). -/
def qmul (a b : ℚ) : ℚ := mkRat (a.num * b.num) (a.den * b.den)

/-- Reducible subtraction on `ℚ` (equals `a - b`, see `qsub_eq`). -/
def qsub (a b : ℚ) : ℚ := mkRat (a.num * b.den - b.num * a.den) (a.den * b.den)

/-- Reducible division on `ℚ` (equals `a / b`, see `qdiv_eq`). -/
def qdiv (a b : ℚ) : ℚ := Rat.divInt (a.num * b.den) (a.den * b.num)

/-- Reducible absolute value on `ℚ` (equals `|a|`, see `qabs_eq`). -/
def qabs (a : ℚ) : ℚ := mkRat (a.num.natAbs : Int) a.den

/-- Reducible sum of a list of rationals (equals `l.sum`, see `qsum_eq`). -/
def qsum (l : List ℚ) : ℚ := l.foldr qadd 0

/-- Python `max(0.0, x)`: returns `x` when `x > 0.0`, else `0.0`. -/
def pymax0 (x : ℚ) : ℚ := if 0 < x then x else 0

/-- Python runtime errors that the modelled code can raise. -/
inductive PyErr where
  /-- `KeyError` raised by `ComparatorRegistry.get`, carrying the missing
  name and the sorted list of registered comparator names. -/
  | notFound (name : String) (available : List String)
  /-- `ZeroDivisionError` (e.g. `max_distance = 0` in `cmp_numeric_distance`). -/
  | zeroDivision
  /-- `ValueError` (e.g. `float("abc")` while reading a parameter). -/
  | valueError
  /-- `TypeError` (e.g. `float(None)` while reading a parameter). -/
  | typeError
  /-- `IndexError` (e.g. `rules[0]` on an empty list). -/
  | indexError
deriving DecidableEq, Repr

deriving instance DecidableEq for Except

/-- A Python scalar value as stored in a record, a parameter mapping or a
details mapping.  `vstrlist` covers the one list-valued details entry
(`"intersection"` in `cmp_jaccard`), avoiding a nested inductive. -/
inductive Value where
  | vnone : Value
  | vbool : Bool → Value
  | vint : Int → Value
  | vfloat : ℚ → Value
  | vstr : String → Value
  | vstrlist : List String → Value
deriving DecidableEq, Repr

/-- A record: an ordered mapping from field name to scalar value. -/
abbrev Record := List (String × Value)

/-- A parameter or details mapping. -/
abbrev Dict := List (String × Value)

/-- First value stored under a key in an association list. -/
def alookup {β : Type} : List (String × β) → String → Option β
  | [], _ => none
  | (k0, v0) :: rest, k => if k0 = k then some v0 else alookup rest k

/-- Python dict assignment: replace the value at the first occurrence of the
key, keeping its position, else append a new entry at the end. -/
def insertOverwrite {β : Type} : List (String × β) → String → β → List (String × β)
  | [], k, v => [(k, v)]
  | (k0, v0) :: rest, k, v =>
    if k0 = k then (k, v) :: rest else (k0, v0) :: insertOverwrite rest k v

/-- Python `record.get(field)`: absent keys yield `None`. -/
def recGet (r : Record) (k : String) : Value := (alookup r k).getD Value.vnone

/-- Python `record.get(field, default)`. -/
def recGetD (r : Record) (k : String) (d : Value) : Value := (alookup r k).getD d

/-- Python `dict.get(key, default)` on a parameter mapping. -/
def dictGetD (p : Dict) (k : String) (d : Value) : Value := (alookup p k).getD d

/-- Decimal rendering of a float modelled as `ℚ`.  Python renders floats by
shortest round-trip decimal; no claim depends on the rendering of a float, so
an integral rational prints as `"<num>.0"` and any other rational prints as
`"<num>/<den>"`. -/
def floatRepr (q : ℚ) : String :=
  if q.den = 1 then toString q.num ++ ".0" else toString q.num ++ "/" ++ toString q.den

/-- Python `str(value)` on a scalar (`str(None) = "None"`, `str(True) = "True"`).
The rendering of a list mirrors nothing any claim relies on. -/
def pyStr : Value → String
  | .vnone => "None"
  | .vbool b => if b then "True" else "False"
  | .vint n => toString n
  | .vfloat q => floatRepr q
  | .vstr s => s
  | .vstrlist l => toString l

/-- Python truthiness, `bool(value)`. -/
def pyBool : Value → Bool
  | .vnone => false
  | .vbool b => b
  | .vint n => decide (n ≠ 0)
  | .vfloat q => decide (q ≠ 0)
  | .vstr s => decide (s ≠ "")
  | .vstrlist l => decide (l ≠ [])

/-- Lower-casing of a string (`str.lower`), faithful on the ASCII inputs the
claims exercise. -/
def pyLower (s : String) : String := String.mk (s.data.map Char.toLower)

/-- Python `str.strip()` with no argument: drop leading and trailing
whitespace (the `Char.isWhitespace` set; Python also strips a few rarer
Unicode spaces, which no claim exercises). -/
def pyStrip (s : String) : String :=
  String.mk (((s.data.dropWhile Char.isWhitespace).reverse.dropWhile
    Char.isWhitespace).reverse)

/-- comparators.py `_to_string`: `None ↦ None`, anything else `↦ str(value)`. -/
def to_string : Value → Option String
  | .vnone => none
  | v => some (pyStr v)

/-- comparators.py `_normalize_text`: optional strip and lower-casing after
`_to_string`. -/
def normalize_text (v : Value) (case_insensitive : Bool := true) (strip : Bool := true) :
    Option String :=
  match to_string v with
  | none => none
  | some s =>
    let s := if strip then pyStrip s else s
    some (if case_insensitive then pyLower s else s)

/-- Leading/trailing whitespace tolerated by Python `float(str)` / `int(str)`. -/
def trimSpaces (cs : List Char) : List Char :=
  ((cs.dropWhile Char.isWhitespace).reverse.dropWhile Char.isWhitespace).reverse

/-- Value of a list of decimal digit characters. -/
def digitsVal (cs : List Char) : Nat := cs.foldl (fun a c => a * 10 + (c.toNat - 48)) 0

/-- Non-empty and all decimal digits. -/
def allDigits (cs : List Char) : Bool :=
  decide (cs ≠ []) && cs.all (fun c => decide ('0' ≤ c ∧ c ≤ '9'))

/-- Exponent part of a float literal: optional sign and digits. -/
def parseExpPart : List Char → Option Int
  | '+' :: rest => if allDigits rest then some (digitsVal rest : Int) else none
  | '-' :: rest => if allDigits rest then some (-(digitsVal rest : Int)) else none
  | rest => if allDigits rest then some (digitsVal rest : Int) else none

/-- Scale a mantissa by a power of ten. -/
def scalePow10 (m : ℚ) (e : Int) : ℚ :=
  if 0 ≤ e then qmul m (mkRat ((10 : Int) ^ e.toNat) 1)
  else qdiv m (mkRat ((10 : Int) ^ (-e).toNat) 1)

/-- Mantissa of a float literal: digits with an optional fractional part
(forms like `"12"`, `"12."`, `"12.5"`, `".5"`). -/
def parseMantissa (cs : List Char) : Option ℚ :=
  match cs.span (fun c => decide ('0' ≤ c ∧ c ≤ '9')) with
  | (intPart, rest) =>
    match rest with
    | [] => if intPart = [] then none else some (mkRat (digitsVal intPart : Int) 1)
    | '.' :: fracPart =>
      if fracPart = [] then
        if intPart = [] then none else some (mkRat (digitsVal intPart : Int) 1)
      else if allDigits fracPart then
        some (mkRat (digitsVal intPart * 10 ^ fracPart.length + digitsVal fracPart : Int)
          (10 ^ fracPart.length))
      else none
    | _ => none

/-- Split a float literal at the exponent marker `e` / `E`, if present. -/
def splitExp (cs : List Char) : List Char × Option (List Char) :=
  match cs.span (fun c => decide (c ≠ 'e' ∧ c ≠ 'E')) with
  | (m, []) => (m, none)
  | (m, _ :: e) => (m, some e)

/-- Unsigned body of a float literal. -/
def parseFloatBody (cs : List Char) : Option ℚ :=
  match splitExp cs with
  | (m, none) => parseMantissa m
  | (m, some e) =>
    match parseMantissa m, parseExpPart e with
    | some q, some ex => some (scalePow10 q ex)
    | _, _ => none

/-- Parse the string form accepted by Python `float(str)`: optional sign,
decimal digits with an optional fractional part, and an optional exponent.
(The exotic `inf` / `nan` / underscore forms are not modelled; no claim
depends on them.)  Returns the exact rational value. -/
def parseFloatChars (cs : List Char) : Option ℚ :=
  match trimSpaces cs with
  | '+' :: rest => parseFloatBody rest
  | '-' :: rest => (parseFloatBody rest).map (fun q => qsub 0 q)
  | rest => parseFloatBody rest

/-- comparators.py `_safe_float`: `float(value)` with every exception absorbed
into `None`.  `float(bool)` is `1.0` / `0.0`; a list is never convertible. -/
def safe_float : Value → Option ℚ
  | .vnone => none
  | .vbool b => some (if b then 1 else 0)
  | .vint n => some (mkRat n 1)
  | .vfloat q => some q
  | .vstr s => parseFloatChars s.data
  | .vstrlist _ => none

/-- Python `float(value)` used on comparator parameters: raises instead of
returning `None` (`TypeError` for `None`/lists, `ValueError` for a bad
string). -/
def pyFloatE : Value → Except PyErr ℚ
  | .vnone => .error .typeError
  | .vbool b => .ok (if b then 1 else 0)
  | .vint n => .ok (mkRat n 1)
  | .vfloat q => .ok q
  | .vstr s => match parseFloatChars s.data with
    | some q => .ok q
    | none => .error .valueError
  | .vstrlist _ => .error .typeError

/-- Parse the string form accepted by Python `int(str)`: optional sign and
decimal digits (whitespace tolerated). -/
def parseIntChars (cs : List Char) : Option Int := parseExpPart (trimSpaces cs)

/-- Python `int(value)` used on comparator parameters: truncates floats toward
zero, raises `TypeError` on `None`, `ValueError` on a bad string. -/
def pyIntE : Value → Except PyErr Int
  | .vnone => .error .typeError
  | .vbool b => .ok (if b then 1 else 0)
  | .vint n => .ok n
  | .vfloat q => .ok (q.num.tdiv (q.den : Int))
  | .vstr s => match parseIntChars s.data with
    | some n => .ok n
    | none => .error .valueError
  | .vstrlist _ => .error .typeError

/-! ### Calendar dates (`_parse_date` and day differences)

Python `datetime.date` values are modelled as validated year/month/day
triples.  `_parse_date` tries `datetime.fromisoformat` (date-only ISO form
`YYYY-MM-DD`), then the fixed `strptime` patterns `%Y-%m-%d`, `%m/%d/%Y`,
`%d/%m/%Y`, `%Y/%m/%d` (year exactly four digits, month/day one or two digits,
calendar-validated), and finally an optional `dateutil` fallback which is
modelled as unavailable (it is an optional dependency).  The claims touching
dates only rely on the score formula and on invalid input parsing to `None`,
not on the exact acceptance set of the parser. -/

/-- Gregorian leap year test. -/
def isLeapYear (y : Nat) : Bool := y % 4 = 0 && (y % 100 ≠ 0 || y % 400 = 0)

/-- Days in a month of the proleptic Gregorian calendar. -/
def daysInMonth (y m : Nat) : Nat :=
  if m = 2 then (if isLeapYear y then 29 else 28)
  else if m = 4 ∨ m = 6 ∨ m = 9 ∨ m = 11 then 30 else 31

/-- A validated calendar date (what `datetime.date` guarantees). -/
structure PyDate where
  year : Nat
  month : Nat
  day : Nat
deriving DecidableEq, Repr

/-- Core of the civil day-number computation. -/
def dateOrdinalCore (y : Int) (m d : Nat) : Int :=
  let era : Int := (if 0 ≤ y then y else y - 399) / 400
  let yoe : Int := y - era * 400
  let mp : Int := ((m : Int) + 9) % 12
  let doy : Int := (153 * mp + 2) / 5 + (d : Int) - 1
  let doe : Int := yoe * 365 + yoe / 4 - yoe / 100 + doy
  era * 146097 + doe

/-- Era-based day-number computation on a pre-shifted year. -/
def dateOrdinalY (y : Int) (m d : Nat) : Int :=
  dateOrdinalCore (if m ≤ 2 then y - 1 else y) m d

/-- Day number of a civil date (proleptic Gregorian, era-based algorithm);
differences of this function are exactly `(d1 - d2).days` in Python. -/
def dateOrdinal (d : PyDate) : Int :=
  dateOrdinalY (d.year : Int) d.month d.day

/-- Construct a date after `datetime`-style validation. -/
def mkDate (y m d : Nat) : Option PyDate :=
  if 1 ≤ m ∧ m ≤ 12 ∧ 1 ≤ d ∧ d ≤ daysInMonth y m ∧ 1 ≤ y ∧ y ≤ 9999 then
    some ⟨y, m, d⟩
  else none

/-- Split a list of characters at every occurrence of a separator char. -/
def splitOnChar (sep : Char) : List Char → List (List Char)
  | [] => [[]]
  | c :: rest =>
    match splitOnChar sep rest with
    | [] => if c = sep then [[], []] else [[c]]
    | piece :: pieces => if c = sep then [] :: piece :: pieces else (c :: piece) :: pieces

/-- Parse one `strptime` pattern `Y sep M sep D` (field order given by
`order`): year exactly four digits, month/day one or two digits, then
calendar validation. -/
def parseDateSep (s : List Char) (sep : Char) (yFirst : Bool) (mFirst : Bool) :
    Option PyDate :=
  match splitOnChar sep s with
  | [f1, f2, f3] =>
    let fy := if yFirst then f1 else f3
    let fa := if yFirst then f2 else f1
    let fb := if yFirst then f3 else f2
    let fm := if yFirst ∨ mFirst then fa else fb
    let fd := if yFirst ∨ mFirst then fb else fa
    if allDigits fy && decide (fy.length = 4) && allDigits fm &&
        decide (fm.length ≤ 2) && allDigits fd && decide (fd.length ≤ 2) then
      mkDate (digitsVal fy) (digitsVal fm) (digitsVal fd)
    else none
  | _ => none

/-- Date-only `datetime.fromisoformat`: strict `YYYY-MM-DD` with zero-padded
fields. -/
def parseIsoDate (s : List Char) : Option PyDate :=
  match splitOnChar '-' s with
  | [fy, fm, fd] =>
    if allDigits fy && decide (fy.length = 4) && allDigits fm &&
        decide (fm.length = 2) && allDigits fd && decide (fd.length = 2) then
      mkDate (digitsVal fy) (digitsVal fm) (digitsVal fd)
    else none
  | _ => none

/-- comparators.py `_parse_date`: `None ↦ None`; otherwise stringify, strip,
try ISO, then the four `strptime` patterns in order; the `dateutil` fallback
is modelled as unavailable. -/
def parse_date (v : Value) : Option PyDate :=
  match to_string v with
  | none => none
  | some s0 =>
    let s := (pyStrip s0).data
    match parseIsoDate s with
    | some d => some d
    | none =>
      match parseDateSep s '-' true true with
      | some d => some d
      | none =>
        match parseDateSep s '/' false true with
        | some d => some d
        | none =>
          match parseDateSep s '/' false false with
          | some d => some d
          | none => parseDateSep s '/' true true

/-! ### `difflib.SequenceMatcher` (as used by `cmp_ratio`)

`cmp_ratio` calls `SequenceMatcher(None, li, ri).ratio()`.  With `isjunk =
None` the junk set `bjunk` is empty, so the two junk-extension loops of
`find_longest_match` never fire and are omitted; the autojunk rule (for
`len(b) >= 200`, characters occurring more than `len(b) // 100 + 1` times are
dropped from `b2j`) is modelled faithfully.  Sequences are `List Char`;
out-of-range indexing (which cannot occur on the in-range arguments produced
by `get_matching_blocks`) is given the harmless default `' '`. -/

/-- Positions (ascending) at which character `c` occurs in `b`. -/
def posList (b : List Char) (c : Char) : List Nat :=
  (List.range b.length).filter (fun j => decide (b.get? j = some c))

/-- The autojunk threshold `n // 100 + 1`. -/
def ntest (n : Nat) : Nat := n / 100 + 1

/-- A character is "popular" (dropped by autojunk) when `len(b) >= 200` and it
occurs more than `ntest` times. -/
def isPopularChar (b : List Char) (c : Char) : Bool :=
  decide (200 ≤ b.length) && decide (ntest b.length < (posList b c).length)

/-- The `b2j` mapping after autojunk pruning. -/
def b2jOf (b : List Char) (c : Char) : List Nat :=
  if isPopularChar b c then [] else posList b c

/-- State `besti, bestj, bestsize` of `find_longest_match`. -/
structure FlmBest where
  bi : Nat
  bj : Nat
  bs : Nat
deriving DecidableEq, Repr

/-- Inner loop of the `find_longest_match` dynamic program: walk the ascending
position list of `a[i]` in `b2j`, skipping positions before `blo` and breaking
at `bhi`, building the new `j2len` row and updating the best block on a
strictly longer chain. -/
def flmInner (old : Nat → Nat) (i blo bhi : Nat) :
    List Nat → (Nat → Nat) → FlmBest → ((Nat → Nat) × FlmBest)
  | [], newj, best => (newj, best)
  | j :: js, newj, best =>
    if j < blo then flmInner old i blo bhi js newj best
    else if bhi ≤ j then (newj, best)
    else
      let k := (if j = 0 then 0 else old (j - 1)) + 1
      let newj' := fun x => if x = j then k else newj x
      let best' := if best.bs < k then ⟨i + 1 - k, j + 1 - k, k⟩ else best
      flmInner old i blo bhi js newj' best'

/-- Outer loop of the dynamic program over the `a`-indices `[alo, ahi)`. -/
def flmOuter (a b : List Char) (blo bhi : Nat) :
    List Nat → (Nat → Nat) → FlmBest → ((Nat → Nat) × FlmBest)
  | [], j2len, best => (j2len, best)
  | i :: is, j2len, best =>
    match flmInner j2len i blo bhi (b2jOf b (a.getD i ' ')) (fun _ => 0) best with
    | (newj, best') => flmOuter a b blo bhi is newj best'

/-- Extension of the best block to the left over equal characters (`bjunk` is
empty with `isjunk = None`, so the junk test in the loop condition is vacuous
and the two junk-extension loops are no-ops).  Structural recursion on `bi`;
the loop guard `alo < bi` always holds in the recursive call. -/
def extendLeft (a b : List Char) (alo blo : Nat) : Nat → Nat → Nat → FlmBest
  | bi + 1, bj + 1, bs =>
    if alo < bi + 1 ∧ blo < bj + 1 ∧ a.getD bi ' ' = b.getD bj ' ' then
      extendLeft a b alo blo bi bj (bs + 1)
    else ⟨bi + 1, bj + 1, bs⟩
  | bi, bj, bs => ⟨bi, bj, bs⟩

/-- Loop of the rightward extension over equal characters, with explicit fuel
`ahi - (bi + bs)` (the guard `bi + bs < ahi` fails exactly when the fuel is
exhausted, so the fuel never cuts the loop short). -/
def extendRightGo (a b : List Char) (ahi bhi bi bj : Nat) : Nat → Nat → FlmBest
  | 0, bs => ⟨bi, bj, bs⟩
  | fuel + 1, bs =>
    if bi + bs < ahi ∧ bj + bs < bhi ∧ a.getD (bi + bs) ' ' = b.getD (bj + bs) ' ' then
      extendRightGo a b ahi bhi bi bj fuel (bs + 1)
    else ⟨bi, bj, bs⟩

/-- Extension of the best block to the right over equal characters. -/
def extendRight (a b : List Char) (ahi bhi : Nat) (best : FlmBest) : FlmBest :=
  extendRightGo a b ahi bhi best.bi best.bj (ahi - (best.bi + best.bs)) best.bs

/-- `SequenceMatcher.find_longest_match` on the window
`a[alo:ahi] × b[blo:bhi]`. -/
def findLongestMatch (a b : List Char) (alo ahi blo bhi : Nat) : FlmBest :=
  match flmOuter a b blo bhi (List.range' alo (ahi - alo)) (fun _ => 0) ⟨alo, blo, 0⟩ with
  | (_, best) => extendRight a b ahi bhi (extendLeft a b alo blo best.bi best.bj best.bs)

/-- Recursive block collection of `get_matching_blocks` (the queue in the
Python code visits exactly these windows; block order does not matter for
`ratio`, which only sums sizes).  `fuel` bounds the recursion depth; the
initial fuel `la + lb + 1` strictly dominates the window-size sum, which
shrinks at every recursive call, so the fuel never runs out on the top-level
call. -/
def mbAux (a b : List Char) : Nat → Nat → Nat → Nat → Nat → List (Nat × Nat × Nat)
  | 0, _, _, _, _ => []
  | fuel + 1, alo, ahi, blo, bhi =>
    let m := findLongestMatch a b alo ahi blo bhi
    if m.bs = 0 then []
    else
      (if alo < m.bi ∧ blo < m.bj then mbAux a b fuel alo m.bi blo m.bj else []) ++
        [(m.bi, m.bj, m.bs)] ++
        (if m.bi + m.bs < ahi ∧ m.bj + m.bs < bhi then
          mbAux a b fuel (m.bi + m.bs) ahi (m.bj + m.bs) bhi
        else [])

/-- `SequenceMatcher.get_matching_blocks` (without the size-zero sentinel,
which contributes nothing to `ratio`). -/
def matchingBlocks (a b : List Char) : List (Nat × Nat × Nat) :=
  mbAux a b (a.length + b.length + 1) 0 a.length 0 b.length

/-- Total number of matched characters. -/
def blockSum (blocks : List (Nat × Nat × Nat)) : Nat :=
  (blocks.map (fun t => t.2.2)).sum

/-- `SequenceMatcher.ratio`: `2*M / T`, or `1.0` when both sequences are
empty. -/
def seqRatio (a b : List Char) : ℚ :=
  if a.length + b.length = 0 then 1
  else mkRat (2 * (blockSum (matchingBlocks a b)) : Int) (a.length + b.length)

/-- Length of the run of "self-matchable" positions ending at `x` (positions
`≥ alo` whose character survives autojunk pruning): the value the
`find_longest_match` dynamic program attains on the diagonal when both
sequences are `l`. -/
def diagRun (l : List Char) (alo : Nat) : Nat → Nat
  | 0 => if alo = 0 ∧ 0 ∈ b2jOf l (l.getD 0 ' ') then 1 else 0
  | x + 1 =>
    if alo ≤ x + 1 ∧ (x + 1) ∈ b2jOf l (l.getD (x + 1) ' ') then
      diagRun l alo x + 1
    else 0

/-- The exact contents of the `j2len` map after `t` rows of the
`find_longest_match` dynamic program on `a = b = l` over the window
`[alo, ahi) × [alo, ahi)` (row `t` is `a`-index `alo + t - 1`). -/
def chainVal (l : List Char) (alo ahi : Nat) : Nat → Nat → Nat
  | 0, _ => 0
  | t + 1, j =>
    if j ∈ b2jOf l (l.getD (alo + t) ' ') ∧ alo ≤ j ∧ j < ahi then
      (if j = 0 then 0 else chainVal l alo ahi t (j - 1)) + 1
    else 0

/-! ### Rule model (models.py)

Pydantic validation is modelled by explicit smart constructors returning
`Except`.  Fields irrelevant to every claim and unused by the engine
(`description`, the per-rule `cardinality` echo) are carried for fidelity. -/

/-- models.py `FieldComparatorConfig`: one field binding within a rule. -/
structure FieldComparatorConfig where
  left_field : String
  right_field : String
  comparator : String
  weight : ℚ := 1
  params : Option Dict := none
  must : Bool := false
  threshold : Option ℚ := none
deriving DecidableEq, Repr

/-- models.py `Cardinality`. -/
inductive Cardinality where
  | one_to_many
  | many_to_one
deriving DecidableEq, Repr

/-- models.py `Rule`. -/
structure Rule where
  name : String
  description : Option String := none
  priority : Int := 100
  cardinality : Cardinality := .one_to_many
  match_threshold : ℚ := mkRat 8 10
  stop_on_first_rule_match : Bool := true
  fields : List FieldComparatorConfig
deriving DecidableEq, Repr

/-- models.py `RuleSet` (the stored, already-validated rule list). -/
structure RuleSet where
  rules : List Rule
deriving DecidableEq, Repr

/-- Evaluation-order key comparison: ascending `(priority, name)`. -/
def ruleKeyLe (r1 r2 : Rule) : Bool :=
  decide (r1.priority < r2.priority) ||
    (decide (r1.priority = r2.priority) && decide (r1.name ≤ r2.name))

/-- models.py `RuleSet._validate_rules_non_empty`: reject an empty list, then
sort (stably, like Python `sorted`) by `(priority, name)`.  The pydantic
validator runs once at construction. -/
def mkRuleSet (rules : List Rule) : Except PyErr RuleSet :=
  if rules = [] then .error .valueError
  else .ok ⟨List.mergeSort rules ruleKeyLe⟩

/-- models.py field-validator checks on `Rule.fields` (non-empty, positive
total weight); used by claim C8-adjacent reasoning only through `mkRuleSet`,
but kept for fidelity of the construction path. -/
def validRuleFields (fields : List FieldComparatorConfig) : Bool :=
  decide (fields ≠ []) && decide (0 < qsum (fields.map (·.weight)))

/-- engine.py context passed to every comparator (`left`, `right`, and the
rule, whose Python `model_dump()` dict is modelled by the rule itself). -/
structure PairCtx where
  left : Record
  right : Record
  rule : Rule

/-- Type of a comparator function: `(left_value, right_value, context, params)
↦ (score, details)`, raising `PyErr` exactly where the Python code raises. -/
def ComparatorFn : Type :=
  Value → Value → Option PairCtx → Dict → Except PyErr (ℚ × Dict)

/-! ### Built-in comparators (comparators.py) -/

/-- comparators.py `cmp_exact`: `1.0` iff both non-null and equal. -/
def cmp_exact : ComparatorFn := fun left right _ _ =>
  if left = right ∧ left ≠ .vnone then .ok (1, [("match", .vbool true)])
  else .ok (0, [("match", .vbool false)])

/-- comparators.py `cmp_icase_exact`: case-insensitive trimmed equality. -/
def cmp_icase_exact : ComparatorFn := fun left right _ _ =>
  match normalize_text left true, normalize_text right true with
  | none, _ => .ok (0, [("reason", .vstr "missing")])
  | some _, none => .ok (0, [("reason", .vstr "missing")])
  | some li, some ri =>
    if li = ri then .ok (1, [("match", .vbool true)])
    else .ok (0, [("match", .vbool false)])

/-- comparators.py `cmp_ratio`: `SequenceMatcher.ratio` on the normalized
strings. -/
def cmp_ratio : ComparatorFn := fun left right _ params =>
  let case_insensitive := pyBool (dictGetD params "case_insensitive" (.vbool true))
  match normalize_text left case_insensitive, normalize_text right case_insensitive with
  | none, _ => .ok (0, [("reason", .vstr "missing")])
  | some _, none => .ok (0, [("reason", .vstr "missing")])
  | some li, some ri =>
    let r := seqRatio li.data ri.data
    .ok (r, [("ratio", .vfloat r)])

/-- Alphanumeric ASCII test used by the token splitter regex
`[^0-9a-zA-Z]+`. -/
def isAlnumAscii (c : Char) : Bool :=
  decide (('0' ≤ c ∧ c ≤ '9') ∨ ('a' ≤ c ∧ c ≤ 'z') ∨ ('A' ≤ c ∧ c ≤ 'Z'))

/-- `re.split(r"[^0-9a-zA-Z]+", s)`: the state is `some cur` while inside a
token (accumulated in reverse) and `none` while inside a separator run
(consecutive separators collapse to one boundary; a leading or trailing run
contributes an empty piece, and the empty string yields `[""]`, exactly as
`re.split` does). -/
def reSplitGo : List Char → Option (List Char) → List String
  | [], some cur => [String.mk cur.reverse]
  | [], none => [""]
  | c :: rest, some cur =>
    if isAlnumAscii c then reSplitGo rest (some (c :: cur))
    else String.mk cur.reverse :: reSplitGo rest none
  | c :: rest, none =>
    if isAlnumAscii c then reSplitGo rest (some [c])
    else reSplitGo rest none

/-- comparators.py `_tokens`: token set (deduplicated) of pieces of length at
least `min_token_len`. -/
def tokensOf (s : String) (min_token_len : Int) : List String :=
  ((reSplitGo s.data (some [])).filter
    (fun t => decide (min_token_len ≤ (t.length : Int)))).dedup

/-- comparators.py `cmp_jaccard`: `|intersection| / |union|` of token sets.
`int(params.get("min_token_len", 2))` raises on an unconvertible parameter. -/
def cmp_jaccard : ComparatorFn := fun left right _ params =>
  let case_insensitive := pyBool (dictGetD params "case_insensitive" (.vbool true))
  match pyIntE (dictGetD params "min_token_len" (.vint 2)) with
  | .error e => .error e
  | .ok min_token_len =>
  match normalize_text left case_insensitive, normalize_text right case_insensitive with
  | none, _ => .ok (0, [("reason", .vstr "missing")])
  | some _, none => .ok (0, [("reason", .vstr "missing")])
  | some li, some ri =>
    let lt := tokensOf li min_token_len
    let rt := tokensOf ri min_token_len
    if lt = [] ∧ rt = [] then .ok (0, [("reason", .vstr "no_tokens")])
    else
      let inter := lt.filter (fun t => decide (t ∈ rt))
      let union := lt ++ rt.filter (fun t => decide (t ∉ lt))
      .ok (mkRat (inter.length : Int) union.length,
        [("intersection", .vstrlist (List.mergeSort inter (fun a b => decide (a ≤ b)))),
         ("union_size", .vint (union.length : Int))])

/-- Whether `needle` occurs at the start of `hay`. -/
def startsWithChars : List Char → List Char → Bool
  | [], _ => true
  | _ :: _, [] => false
  | n :: ns, h :: hs => decide (n = h) && startsWithChars ns hs

/-- Python substring containment `needle in hay` (the empty string is
contained in everything). -/
def containsChars (needle : List Char) : List Char → Bool
  | [] => startsWithChars needle []
  | h :: hs => startsWithChars needle (h :: hs) || containsChars needle hs

/-- comparators.py `cmp_contains`: substring containment in the configured
direction. -/
def cmp_contains : ComparatorFn := fun left right _ params =>
  let case_insensitive := pyBool (dictGetD params "case_insensitive" (.vbool true))
  let direction := pyStr (dictGetD params "direction" (.vstr "left_in_right"))
  match normalize_text left case_insensitive, normalize_text right case_insensitive with
  | none, _ => .ok (0, [("reason", .vstr "missing")])
  | some _, none => .ok (0, [("reason", .vstr "missing")])
  | some li, some ri =>
    if direction = "left_in_right" then
      let found := containsChars li.data ri.data
      .ok (if found then 1 else 0, [("found", .vbool found), ("direction", .vstr direction)])
    else if direction = "right_in_left" then
      let found := containsChars ri.data li.data
      .ok (if found then 1 else 0, [("found", .vbool found), ("direction", .vstr direction)])
    else .ok (0, [("reason", .vstr "bad_direction"), ("direction", .vstr direction)])

/-- comparators.py `cmp_numeric_distance`: `max(0, 1 - |l - r| / max_distance)`.
`float(params.get("max_distance", 1.0))` raises on an unconvertible parameter,
and a zero `max_distance` raises `ZeroDivisionError` exactly as Python
float division does. -/
def cmp_numeric_distance : ComparatorFn := fun left right _ params =>
  match pyFloatE (dictGetD params "max_distance" (.vfloat 1)) with
  | .error e => .error e
  | .ok max_distance =>
  match safe_float left, safe_float right with
  | none, _ => .ok (0, [("reason", .vstr "not_numeric")])
  | some _, none => .ok (0, [("reason", .vstr "not_numeric")])
  | some lf, some rf =>
    let diff := qabs (qsub lf rf)
    if max_distance = 0 then .error .zeroDivision
    else
      .ok (pymax0 (qsub 1 (qdiv diff max_distance)),
        [("difference", .vfloat diff), ("max_distance", .vfloat max_distance)])

/-- comparators.py `cmp_date_distance_days`: `max(0, 1 - days / max_days)`.
`int(params.get("max_days", 1))` raises on an unconvertible parameter, and a
zero `max_days` raises `ZeroDivisionError`. -/
def cmp_date_distance_days : ComparatorFn := fun left right _ params =>
  match pyIntE (dictGetD params "max_days" (.vint 1)) with
  | .error e => .error e
  | .ok max_days =>
  match parse_date left, parse_date right with
  | none, _ => .ok (0, [("reason", .vstr "not_date")])
  | some _, none => .ok (0, [("reason", .vstr "not_date")])
  | some ld, some rd =>
    let days : Int := |dateOrdinal ld - dateOrdinal rd|
    if max_days = 0 then .error .zeroDivision
    else
      .ok (pymax0 (qsub 1 (qdiv (mkRat days 1) (mkRat max_days 1))),
        [("days", .vint days), ("max_days", .vint max_days)])

/-! ### Comparator registry (registry.py) -/

/-- registry.py `ComparatorRegistry`: the internal name-to-function catalogue
(the parallel description catalogue feeds only the `describe` diagnostic and
is omitted). -/
abbrev ComparatorRegistry : Type := List (String × ComparatorFn)

/-- Name normalization used by `register` / `get` / `describe`. -/
def normName (name : String) : String := pyLower (pyStrip name)

/-- registry.py `ComparatorRegistry.names`: sorted registered names. -/
def ComparatorRegistry.names (reg : ComparatorRegistry) : List String :=
  List.mergeSort (reg.map Prod.fst) (fun a b => decide (a ≤ b))

/-- registry.py `ComparatorRegistry.register`: store under the normalized
name, overwriting; an empty normalized name raises `ValueError`. -/
def ComparatorRegistry.register (reg : ComparatorRegistry) (name : String)
    (fn : ComparatorFn) : Except PyErr ComparatorRegistry :=
  if normName name = "" then .error .valueError
  else .ok (insertOverwrite reg (normName name) fn)

/-- registry.py `ComparatorRegistry.get`: look up the normalized name; a miss
raises `KeyError` carrying the sorted list of registered names. -/
def ComparatorRegistry.get (reg : ComparatorRegistry) (name : String) :
    Except PyErr ComparatorFn :=
  match alookup reg (normName name) with
  | some fn => .ok fn
  | none => .error (.notFound name (ComparatorRegistry.names reg))

/-- registry.py `ComparatorRegistry.evaluate`: look up and invoke, propagating
`KeyError` unchanged and returning the comparator result verbatim. -/
def ComparatorRegistry.evaluate (reg : ComparatorRegistry) (name : String)
    (left_value right_value : Value) (context : Option PairCtx) (params : Dict) :
    Except PyErr (ℚ × Dict) :=
  match ComparatorRegistry.get reg name with
  | .error e => .error e
  | .ok comparator => comparator left_value right_value context params

/-- comparators.py `register_default_comparators` applied to the fresh
`default_registry`: the seven built-ins under their registration names (each
call succeeds, names being non-empty, normalized and distinct, so the
resulting catalogue is this literal list). -/
def default_registry : ComparatorRegistry :=
  [("exact", cmp_exact),
   ("icase_exact", cmp_icase_exact),
   ("ratio", cmp_ratio),
   ("jaccard", cmp_jaccard),
   ("contains", cmp_contains),
   ("numeric_distance", cmp_numeric_distance),
   ("date_distance_days", cmp_date_distance_days)]

/-! ### Output models and the matching engine (engine.py) -/

/-- models.py `FieldScore`. -/
structure FieldScore where
  left_field : String
  right_field : String
  comparator : String
  weight : ℚ
  score : ℚ
  passed : Bool
  details : Option Dict := none
deriving DecidableEq, Repr

/-- models.py `PairScore`. -/
structure PairScore where
  left_id : String
  right_id : String
  rule_name : String
  total_score : ℚ
  matched : Bool
  field_scores : List FieldScore
  weight_sum : ℚ
deriving DecidableEq, Repr

/-- models.py `EngineResult` (`matches_index` is a Python dict, modelled as an
insertion-ordered association list with unique keys). -/
structure EngineResult where
  cardinality : Cardinality
  indexed_by : String
  matches_index : List (String × List PairScore) := []
  unmatched_left_ids : List String := []
  unmatched_right_ids : List String := []
deriving DecidableEq, Repr

/-- One binding evaluation inside `MatchingEngine._score_pair`: fetch the two
field values (absent `↦ None`) and invoke the registry. -/
def evalBinding (reg : ComparatorRegistry) (left right : Record) (rule : Rule)
    (fc : FieldComparatorConfig) : Except PyErr (ℚ × Dict) :=
  ComparatorRegistry.evaluate reg fc.comparator (recGet left fc.left_field)
    (recGet right fc.right_field) (some ⟨left, right, rule⟩) (fc.params.getD [])

/-- Body of the binding loop of `MatchingEngine._score_pair`: evaluates every
binding in order, threading the weighted sum, the `all_must_pass` flag and the
accumulated `FieldScore` list; a comparator exception aborts the whole pair
evaluation exactly as in Python. -/
def scoreFields (reg : ComparatorRegistry) (left right : Record) (rule : Rule) :
    List FieldComparatorConfig → Except PyErr (ℚ × Bool × List FieldScore)
  | [] => .ok (0, true, [])
  | fc :: rest =>
    match evalBinding reg left right rule fc with
    | .error e => .error e
    | .ok (score, details) =>
      let passed := decide (fc.threshold.getD 0 ≤ score)
      match scoreFields reg left right rule rest with
      | .error e => .error e
      | .ok (ws, amp, fss) =>
        .ok (qadd (qmul score fc.weight) ws,
          (if fc.must ∧ passed = false then false else amp),
          ⟨fc.left_field, fc.right_field, fc.comparator, fc.weight, score, passed,
            some details⟩ :: fss)

/-- engine.py `MatchingEngine._score_pair`.  Note that the identifiers stored
in the `PairScore` are read from the literal field `"id"` with default
`"<no-id>"`, not from the caller-supplied id field names. -/
def score_pair (reg : ComparatorRegistry) (left right : Record) (rule : Rule) :
    Except PyErr PairScore :=
  match scoreFields reg left right rule rule.fields with
  | .error e => .error e
  | .ok (weighted_sum, all_must_pass, field_scores) =>
    let total_weight := qsum (rule.fields.map (·.weight))
    let total_score := if 0 < total_weight then qdiv weighted_sum total_weight else 0
    let matched := all_must_pass && decide (rule.match_threshold ≤ total_score)
    .ok ⟨pyStr (recGetD left "id" (.vstr "<no-id>")),
      pyStr (recGetD right "id" (.vstr "<no-id>")),
      rule.name, total_score, matched, field_scores, total_weight⟩

/-- Python best-candidate update: replace only on a strictly higher score, so
the first rule reaching the maximum is kept. -/
def updateBest (best : Option PairScore) (ps : PairScore) : Option PairScore :=
  match best with
  | none => some ps
  | some b => if b.total_score < ps.total_score then some ps else some b

/-- Loop of `MatchingEngine._evaluate_rules_for_pair`: return the first
matched `PairScore` immediately; otherwise track the best score and fall back
to it (re-scoring `rules[0]` only in the defensively-unreachable case where no
best was tracked). -/
def evalRulesGo (reg : ComparatorRegistry) (left right : Record) (rules0 : List Rule) :
    Option PairScore → List Rule → Except PyErr PairScore
  | best, [] =>
    (match best with
     | some b => .ok b
     | none =>
       match rules0 with
       | [] => .error .indexError
       | r0 :: _ => score_pair reg left right r0)
  | best, rule :: rest =>
    match score_pair reg left right rule with
    | .error e => .error e
    | .ok pair_score =>
      if pair_score.matched then .ok pair_score
      else evalRulesGo reg left right rules0 (updateBest best pair_score) rest

/-- engine.py `MatchingEngine._evaluate_rules_for_pair`. -/
def evaluate_rules_for_pair (reg : ComparatorRegistry) (left right : Record)
    (rules : List Rule) : Except PyErr PairScore :=
  evalRulesGo reg left right rules none rules

/-- Sort order used on each match list: Python `sort(key = (-total_score,
rule_name))`, i.e. descending score with ties broken by ascending rule name
(Python list.sort and `List.mergeSort` are both stable). -/
def scoreKeyLe (x y : PairScore) : Bool :=
  decide (y.total_score < x.total_score) ||
    (decide (x.total_score = y.total_score) && decide (x.rule_name ≤ y.rule_name))

/-- Python `matches[:top_k]` (for the non-negative `top_k` values the CLI can
produce; `None` keeps the whole list). -/
def truncTopK (top_k : Option Nat) (l : List PairScore) : List PairScore :=
  match top_k with
  | none => l
  | some k => l.take k

/-- The stringified identifier of a record under a given id field name (the
key used by `match` for indexing and unmatched tracking). -/
def rowId (idField : String) (r : Record) : String := pyStr (recGet r idField)

/-- engine.py `{str(r.get(field)): r for r in records}`: identifier-to-record
map; later records sharing an identifier overwrite the earlier entry. -/
def buildIdMap (records : List Record) (field : String) : List (String × Record) :=
  records.foldl (fun m r => insertOverwrite m (pyStr (recGet r field)) r) []

/-- The per-index-record loop shared by the two cardinality branches of
`MatchingEngine.match` (the Python bodies are identical up to which side is
iterated and the argument order of `_evaluate_rules_for_pair`, supplied here
through `pairEval`): score the row against every record of the other side,
keep matched scores, and either record the row as unmatched or store the
sorted, truncated match list under the row identifier. -/
def processRows (pairEval : Record → Record → Except PyErr PairScore)
    (others : List Record) (idField : String) (top_k : Option Nat) :
    List Record → List (String × List PairScore) → List String →
    Except PyErr (List (String × List PairScore) × List String)
  | [], mi, unm => .ok (mi, unm)
  | row :: rest, mi, unm =>
    match others.mapM (pairEval row) with
    | .error e => .error e
    | .ok scores =>
      if scores.filter (·.matched) = [] then
        processRows pairEval others idField top_k rest mi (unm ++ [rowId idField row])
      else
        processRows pairEval others idField top_k rest
          (insertOverwrite mi (rowId idField row)
            (truncTopK top_k (List.mergeSort (scores.filter (·.matched)) scoreKeyLe))) unm

/-- All counterpart identifiers appearing in stored match lists (the Python
set comprehension `{s.right_id ...}` or `{s.left_id ...}`; only membership is
ever used). -/
def collectIds (proj : PairScore → String) (mi : List (String × List PairScore)) :
    List String :=
  (mi.map Prod.snd).flatten.map proj

/-- engine.py `MatchingEngine.match`.  `left_id_field` / `right_id_field`
default to `"id"` and `top_k` to `None` at the Python call sites. -/
def engineMatch (reg : ComparatorRegistry) (left_records right_records : List Record)
    (ruleset : RuleSet) (cardinality : Cardinality)
    (left_id_field : String := "id") (right_id_field : String := "id")
    (top_k : Option Nat := none) : Except PyErr EngineResult :=
  let rules := ruleset.rules
  let index_side := if cardinality = .one_to_many then "left" else "right"
  let left_map := buildIdMap left_records left_id_field
  let right_map := buildIdMap right_records right_id_field
  if cardinality = .one_to_many then
    match processRows (fun row other => evaluate_rules_for_pair reg row other rules)
        right_records left_id_field top_k left_records [] [] with
    | .error e => .error e
    | .ok (mi, unmatched_left) =>
      .ok ⟨cardinality, index_side, mi, unmatched_left,
        (right_map.map Prod.fst).filter
          (fun rid => decide (rid ∉ collectIds (·.right_id) mi))⟩
  else
    match processRows (fun row other => evaluate_rules_for_pair reg other row rules)
        left_records right_id_field top_k right_records [] [] with
    | .error e => .error e
    | .ok (mi, unmatched_right) =>
      .ok ⟨cardinality, index_side, mi,
        (left_map.map Prod.fst).filter
          (fun lid => decide (lid ∉ collectIds (·.left_id) mi)),
        unmatched_right⟩

/-! ### Derived notions used by the claim statements -/

/-- The propositional form of the per-entry sort order `scoreKeyLe`:
descending `total_score`, ties broken by ascending `rule_name`. -/
def scoreOrd (x y : PairScore) : Prop :=
  y.total_score < x.total_score ∨
    (x.total_score = y.total_score ∧ x.rule_name ≤ y.rule_name)

/-- The propositional form of the rule order `ruleKeyLe`: ascending
`(priority, name)`. -/
def ruleOrd (r1 r2 : Rule) : Prop :=
  r1.priority < r2.priority ∨ (r1.priority = r2.priority ∧ r1.name ≤ r2.name)

/-- The pure content of folding `updateBest` from a tracked best: the first
score reaching the running maximum wins (replacement only on a strictly
higher score). -/
def bestOf (b : PairScore) (qs : List PairScore) : PairScore :=
  qs.foldl (fun acc q => if acc.total_score < q.total_score then q else acc) b

/-! ### Concrete fixtures used by counterexamples and witnesses -/

/-- A one-binding rule using the `exact` comparator on a single field, with
all model defaults (`weight = 1`, `must = false`, no per-field threshold,
`match_threshold = 0.8`). -/
def fxExactRule (nm : String) (pr : Int) (fld : String) : Rule :=
  { name := nm, priority := pr,
    fields := [{ left_field := fld, right_field := fld, comparator := "exact" }] }

/-- A one-binding rule with a caller-chosen comparator name. -/
def fxCmpRule (nm : String) (pr : Int) (fld : String) (cmpName : String) : Rule :=
  { name := nm, priority := pr,
    fields := [{ left_field := fld, right_field := fld, comparator := cmpName }] }

/-- A two-field record. -/
def fxRec (idField idVal fld v : String) : Record :=
  [(idField, .vstr idVal), (fld, .vstr v)]

/-- A rule whose second binding carries `must = true` with threshold `0.5`
and weight `0`, so a failing must-binding cannot lower the aggregate yet
still disqualifies the rule. -/
def fxMustRule : Rule :=
  { name := "rm", priority := 1,
    fields := [{ left_field := "email", right_field := "email", comparator := "exact" },
               { left_field := "phone", right_field := "phone", comparator := "exact",
                 weight := 0, must := true, threshold := some (mkRat 1 2) }] }

/-- A three-field record. -/
def fxRec3 (idVal email phone : String) : Record :=
  [("id", .vstr idVal), ("email", .vstr email), ("phone", .vstr phone)]

/-- The binding outcomes of `fxMustRule` on records agreeing on `email` but
not on `phone`. -/
def fxMustSds : List (ℚ × Dict) :=
  [(1, [("match", .vbool true)]), (0, [("match", .vbool false)])]

/-! ## Proof development

`List.mergeSort` is sealed (irreducible) by default; unsealing it lets the
kernel evaluate the engine on the concrete fixtures. -/

unseal List.merge List.mergeSort

/-! ## Bridge lemmas

The reducible arithmetic helpers agree with the standard field operations on
`ℚ`. -/

theorem qadd_eq (a b : ℚ) : qadd a b = a + b := by
  rw [Rat.add_def]
  simp [qadd, Rat.normalize_eq_mkRat]

theorem qmul_eq (a b : ℚ) : qmul a b = a * b := by
  rw [Rat.mul_def]
  simp [qmul, Rat.normalize_eq_mkRat]

theorem qsub_eq (a b : ℚ) : qsub a b = a - b := by
  rw [Rat.sub_def]
  simp [qsub, Rat.normalize_eq_mkRat]

theorem qdiv_eq (a b : ℚ) : qdiv a b = a / b := (Rat.div_def' a b).symm

theorem qabs_eq (a : ℚ) : qabs a = |a| := by
  rcases le_or_lt 0 a with h | h
  · rw [abs_of_nonneg h, qabs, Int.natAbs_of_nonneg (Rat.num_nonneg.mpr h)]
    exact Rat.mkRat_self a
  · rw [abs_of_neg h, qabs]
    have hn : a.num < 0 := Rat.num_neg.mpr h
    rw [Int.ofNat_natAbs_of_nonpos hn.le, ← Rat.neg_mkRat, Rat.mkRat_self]

theorem qsum_eq (l : List ℚ) : qsum l = l.sum := by
  induction l with
  | nil => rfl
  | cons x xs ih => rw [qsum, List.foldr_cons, qadd_eq, List.sum_cons, ← qsum, ih]

theorem pymax0_eq (x : ℚ) : pymax0 x = max 0 x := by
  rw [pymax0, max_def]
  rcases lt_trichotomy 0 x with h | h | h
  · rw [if_pos h, if_pos h.le]
  · simp [h]
  · rw [if_neg (not_lt.mpr h.le), if_neg (not_le.mpr h)]

theorem mkRatNat_le_one {a b : Nat} (hab : a ≤ b) (hb : 0 < b) :
    mkRat (a : Int) b ≤ 1 := by
  rw [Rat.mkRat_eq_div]
  rw [div_le_one (by exact_mod_cast hb)]
  exact_mod_cast hab

theorem mkRatNat_nonneg (a b : Nat) : 0 ≤ mkRat (a : Int) b := by
  rw [Rat.mkRat_eq_div]
  positivity

/-! ## Claim C1 -/

/-- C1 (code bug evidence): with caller-specified identifier fields
`left_id_field = right_id_field = "k"`, the produced index key is `"L1"`
(read through `"k"`), but the stored `PairScore` carries `left_id = right_id =
"<no-id>"`, because `_score_pair` reads the literal field `"id"` regardless of
the caller-specified identifier field names.  The claim requires `left_id =
"L1"` and `right_id = "R1"` here. -/
theorem c1_pair_score_ids_read_literal_id_field :
    (engineMatch default_registry
        [fxRec "k" "L1" "email" "a"] [fxRec "k" "R1" "email" "a"]
        ⟨[fxExactRule "r1" 1 "email"]⟩ .one_to_many "k" "k" none).toOption.map
      (fun res => (res.matches_index.map Prod.fst,
        res.matches_index.map (fun e => e.2.map (fun s => (s.left_id, s.right_id)))))
      = some (["L1"], [[("<no-id>", "<no-id>")]]) := by decide

/-! ## Claim C2, counterexample part -/

/-- C2 (counterexample): the ratio comparator is not symmetric.
`SequenceMatcher` scores `("tide", "diet")` as `0.25` but `("diet", "tide")`
as `0.5`, so `cmp_ratio` returns different scores under argument swap. -/
theorem c2_ratio_not_symmetric :
    (cmp_ratio (.vstr "tide") (.vstr "diet") none []).toOption.map Prod.fst
        = some (mkRat 1 4) ∧
      (cmp_ratio (.vstr "diet") (.vstr "tide") none []).toOption.map Prod.fst
        = some (mkRat 1 2) := by decide

/-! ## Claim C3, counterexample part -/

/-- C3 (counterexample): with two left records sharing the identifier `"L1"`,
one matching and one not, `"L1"` ends up both as a `matches_index` key and in
`unmatched_left_ids`, violating the claimed exactly-one invariant. -/
theorem c3_duplicate_left_id_in_both :
    (engineMatch default_registry
        [fxRec "id" "L1" "email" "a", fxRec "id" "L1" "email" "b"]
        [fxRec "id" "R1" "email" "a"]
        ⟨[fxExactRule "r1" 1 "email"]⟩ .one_to_many "id" "id" none).toOption.map
      (fun res => (res.matches_index.map Prod.fst, res.unmatched_left_ids))
      = some (["L1"], ["L1"]) := by decide

/-! ## Claim C6, counterexample part -/

/-- C6 (counterexample): comparator parameter mappings are not harmless.
`max_distance = 0` makes `cmp_numeric_distance` raise `ZeroDivisionError` on
well-formed numeric input, and `max_distance = -1` produces the score `3`,
outside `[0, 1]`. -/
theorem c6_bad_params_raise_or_out_of_range :
    cmp_numeric_distance (.vint 3) (.vint 3) none [("max_distance", .vint 0)]
        = .error .zeroDivision ∧
      (cmp_numeric_distance (.vint 3) (.vint 1) none
          [("max_distance", .vint (-1))]).toOption.map Prod.fst = some 3 := by
  constructor
  · rfl
  · decide

/-! ## Claim C9, counterexample part -/

/-- C9 (counterexample): a rule referencing the unregistered comparator
`"nope"` does not fail the `match` call when no pair evaluation ever reaches
it — here the left record list is empty, and `match` succeeds with an ordinary
`EngineResult`. -/
theorem c9_unknown_comparator_unreached_no_error :
    (engineMatch default_registry [] [fxRec "id" "R1" "email" "a"]
        ⟨[fxCmpRule "r1" 1 "email" "nope"]⟩ .one_to_many "id" "id" none).toOption
      = some ⟨.one_to_many, "left", [], [], ["R1"]⟩ := by decide

/-! ## Helpers: `Except` bind inversion, association lists, id maps -/

theorem except_bind_ok {ε α β : Type} (x : Except ε α) (f : α → Except ε β) (b : β) :
    (x >>= f) = .ok b ↔ ∃ a, x = .ok a ∧ f a = .ok b := by
  cases x with
  | error e => simp [Bind.bind, Except.bind]
  | ok a => simp [Bind.bind, Except.bind]

theorem insertOverwrite_keys {β : Type} (l : List (String × β)) (k : String) (v : β) :
    (insertOverwrite l k v).map Prod.fst =
      if k ∈ l.map Prod.fst then l.map Prod.fst else l.map Prod.fst ++ [k] := by
  induction l with
  | nil => simp [insertOverwrite]
  | cons p rest ih =>
    obtain ⟨k0, v0⟩ := p
    by_cases h : k0 = k
    · subst h
      simp [insertOverwrite]
    · by_cases hm : k ∈ rest.map Prod.fst
      · simp [insertOverwrite, h, ih, hm, Ne.symm h]
      · simp [insertOverwrite, h, ih, hm, Ne.symm h]

theorem insertOverwrite_of_not_mem {β : Type} (k : String) (v : β) :
    ∀ l : List (String × β), k ∉ l.map Prod.fst → insertOverwrite l k v = l ++ [(k, v)] := by
  intro l
  induction l with
  | nil => intro _; simp [insertOverwrite]
  | cons p rest ih =>
    intro h
    obtain ⟨k0, v0⟩ := p
    simp only [List.map_cons, List.mem_cons] at h
    push_neg at h
    simp [insertOverwrite, Ne.symm h.1, ih h.2]

theorem mem_insertOverwrite {β : Type} (k : String) (v : β) (p : String × β) :
    ∀ l : List (String × β), p ∈ insertOverwrite l k v → p ∈ l ∨ p = (k, v) := by
  intro l
  induction l with
  | nil => intro h; simpa [insertOverwrite] using h
  | cons q rest ih =>
    intro h
    obtain ⟨k0, v0⟩ := q
    by_cases hk : k0 = k
    · subst hk
      simp only [insertOverwrite, if_true, eq_self_iff_true, List.mem_cons] at h
      rcases h with h | h
      · exact Or.inr h
      · exact Or.inl (List.mem_cons_of_mem _ h)
    · simp only [insertOverwrite, if_neg hk, List.mem_cons] at h
      rcases h with h | h
      · exact Or.inl (by simp [h])
      · rcases ih h with h2 | h2
        · exact Or.inl (List.mem_cons_of_mem _ h2)
        · exact Or.inr h2

theorem insertOverwrite_keys_nodup {β : Type} {l : List (String × β)}
    (h : (l.map Prod.fst).Nodup) (k : String) (v : β) :
    ((insertOverwrite l k v).map Prod.fst).Nodup := by
  rw [insertOverwrite_keys]
  by_cases hm : k ∈ l.map Prod.fst
  · rwa [if_pos hm]
  · rw [if_neg hm, List.nodup_append]
    refine ⟨h, List.nodup_singleton k, ?_⟩
    intro a ha hb
    rw [List.mem_singleton] at hb
    subst hb
    exact hm ha

theorem foldl_insertOverwrite_keys_nodup (key : Record → String) :
    ∀ (recs : List Record) (acc : List (String × Record)),
      (acc.map Prod.fst).Nodup →
      ((recs.foldl (fun m r => insertOverwrite m (key r) r) acc).map Prod.fst).Nodup := by
  intro recs
  induction recs with
  | nil => intro acc h; exact h
  | cons r rest ih =>
    intro acc h
    exact ih _ (insertOverwrite_keys_nodup h (key r) r)

theorem buildIdMap_keys_nodup (records : List Record) (field : String) :
    ((buildIdMap records field).map Prod.fst).Nodup :=
  foldl_insertOverwrite_keys_nodup _ records [] (by simp)

theorem processRows_ids (pairEval : Record → Record → Except PyErr PairScore)
    (others : List Record) (idField : String) (tk : Option Nat) :
    ∀ (rows : List Record) (mi : List (String × List PairScore)) (unm : List String)
      (out : List (String × List PairScore) × List String),
      processRows pairEval others idField tk rows mi unm = .ok out →
      (mi.map Prod.fst ++ rows.map (rowId idField)).Nodup →
      (out.1.map Prod.fst ++ out.2).Perm
        (mi.map Prod.fst ++ unm ++ rows.map (rowId idField)) := by
  intro rows
  induction rows with
  | nil =>
    intro mi unm out h _
    obtain rfl : (mi, unm) = out := by simpa [processRows] using h
    simp
  | cons row rest ih =>
    intro mi unm out h hnd
    rw [processRows] at h
    cases hsc : others.mapM (pairEval row) with
    | error e => rw [hsc] at h; simp at h
    | ok scores =>
      rw [hsc] at h
      dsimp only at h
      by_cases hf : scores.filter (·.matched) = []
      · rw [if_pos hf] at h
        have hnd' : (mi.map Prod.fst ++ rest.map (rowId idField)).Nodup := by
          refine hnd.sublist ?_
          simp only [List.map_cons]
          exact (List.append_sublist_append_left _).mpr (List.sublist_cons_self _ _)
        have hperm := ih mi (unm ++ [rowId idField row]) out h hnd'
        refine hperm.trans ?_
        apply List.perm_iff_count.mpr
        intro a
        simp [List.count_append, List.count_cons]
      · rw [if_neg hf] at h
        have hrid : rowId idField row ∉ mi.map Prod.fst := by
          intro hmem
          exact (List.disjoint_of_nodup_append hnd) hmem (by simp)
        rw [insertOverwrite_of_not_mem _ _ _ hrid] at h
        have hnd' : ((mi ++ [(rowId idField row,
            truncTopK tk (List.mergeSort (scores.filter (·.matched)) scoreKeyLe))]).map
              Prod.fst ++ rest.map (rowId idField)).Nodup := by
          simpa using hnd
        have hperm := ih _ unm out h hnd'
        refine hperm.trans ?_
        apply List.perm_iff_count.mpr
        intro a
        simp [List.count_append, List.count_cons]
        omega

/-- C3 (amended): with cardinality `one_to_many` and pairwise-distinct left
identifiers (stringified values under `left_id_field`), every left identifier
appears in exactly one of `matches_index`'s keys or `unmatched_left_ids`,
never both, never neither. -/
theorem c3_partition_of_distinct_left_ids
    (reg : ComparatorRegistry) (L R : List Record) (rs : RuleSet)
    (fl fr : String) (tk : Option Nat) (res : EngineResult)
    (hnd : (L.map (rowId fl)).Nodup)
    (hok : engineMatch reg L R rs .one_to_many fl fr tk = .ok res) :
    ∀ i ∈ L.map (rowId fl),
      (i ∈ res.matches_index.map Prod.fst ∧ i ∉ res.unmatched_left_ids) ∨
      (i ∉ res.matches_index.map Prod.fst ∧ i ∈ res.unmatched_left_ids) := by
  simp only [engineMatch, eq_self_iff_true, if_true] at hok
  cases hpr : processRows (fun row other => evaluate_rules_for_pair reg row other rs.rules)
      R fl tk L [] [] with
  | error e => rw [hpr] at hok; simp at hok
  | ok out =>
    rw [hpr] at hok
    obtain ⟨mi, unl⟩ := out
    dsimp only at hok
    injection hok with hres
    subst hres
    have hperm : (mi.map Prod.fst ++ unl).Perm (L.map (rowId fl)) := by
      simpa using processRows_ids _ R fl tk L [] [] (mi, unl) hpr (by simpa using hnd)
    have hA : (mi.map Prod.fst ++ unl).Nodup := hperm.symm.nodup hnd
    intro i hi
    dsimp only
    rcases List.mem_append.mp (hperm.mem_iff.mpr hi) with hk | hu
    · exact Or.inl ⟨hk, fun hu2 => (List.disjoint_of_nodup_append hA) hk hu2⟩
    · exact Or.inr ⟨fun hk2 => (List.disjoint_of_nodup_append hA) hk2 hu, hu⟩

/-- C3 witness (the partition property instantiated at the identifier
`"L1"`). -/
theorem c3_partition_of_distinct_left_ids_witness :
    ("L1" ∈ (⟨Cardinality.one_to_many, "left", [], ["L1"], []⟩ :
          EngineResult).matches_index.map Prod.fst ∧
        "L1" ∉ (⟨Cardinality.one_to_many, "left", [], ["L1"], []⟩ :
          EngineResult).unmatched_left_ids) ∨
    ("L1" ∉ (⟨Cardinality.one_to_many, "left", [], ["L1"], []⟩ :
          EngineResult).matches_index.map Prod.fst ∧
        "L1" ∈ (⟨Cardinality.one_to_many, "left", [], ["L1"], []⟩ :
          EngineResult).unmatched_left_ids) :=
  c3_partition_of_distinct_left_ids default_registry [fxRec "id" "L1" "email" "a"] []
    ⟨[fxExactRule "r1" 1 "email"]⟩ "id" "id" none _ (by decide) (by decide)
    "L1" (by decide)

/-- C10: in every successful result the opposite (non-index) side's unmatched
list contains each identifier at most once (it is derived from the
deduplicating identifier-to-record map), while the index side's unmatched list
gains one entry per record, so a duplicated index-side identifier can appear
in it more than once (second conjunct: a concrete run producing
`unmatched_left_ids = ["X", "X"]`). -/
theorem c10_opposite_unmatched_nodup :
    (∀ (reg : ComparatorRegistry) (L R : List Record) (rs : RuleSet) (card : Cardinality)
      (fl fr : String) (tk : Option Nat) (res : EngineResult),
      engineMatch reg L R rs card fl fr tk = .ok res →
        (card = .one_to_many → res.unmatched_right_ids.Nodup) ∧
        (card = .many_to_one → res.unmatched_left_ids.Nodup)) ∧
    (engineMatch default_registry [fxRec "id" "X" "e" "1", fxRec "id" "X" "e" "2"] []
        ⟨[fxExactRule "r1" 1 "e"]⟩ .one_to_many "id" "id" none).toOption.map
      (fun r => r.unmatched_left_ids) = some ["X", "X"] := by
  constructor
  · intro reg L R rs card fl fr tk res hok
    cases card with
    | one_to_many =>
      refine ⟨fun _ => ?_, fun h => Cardinality.noConfusion h⟩
      simp only [engineMatch, eq_self_iff_true, if_true] at hok
      cases hpr : processRows (fun row other => evaluate_rules_for_pair reg row other rs.rules)
          R fl tk L [] [] with
      | error e => rw [hpr] at hok; simp at hok
      | ok out =>
        rw [hpr] at hok
        obtain ⟨mi, unl⟩ := out
        dsimp only at hok
        injection hok with hres
        subst hres
        exact (buildIdMap_keys_nodup R fr).filter _
    | many_to_one =>
      refine ⟨fun h => Cardinality.noConfusion h, fun _ => ?_⟩
      simp only [engineMatch] at hok
      rw [if_neg (by simp)] at hok
      cases hpr : processRows (fun row other => evaluate_rules_for_pair reg other row rs.rules)
          L fr tk R [] [] with
      | error e => rw [hpr] at hok; simp at hok
      | ok out =>
        rw [hpr] at hok
        obtain ⟨mi, unr⟩ := out
        dsimp only at hok
        injection hok with hres
        subst hres
        exact (buildIdMap_keys_nodup L fl).filter _
  · decide

/-- C10 witness. -/
theorem c10_opposite_unmatched_nodup_witness :
    (Cardinality.one_to_many = Cardinality.one_to_many →
      (⟨Cardinality.one_to_many, "left", [], ["X", "X"], []⟩ :
        EngineResult).unmatched_right_ids.Nodup) ∧
    (Cardinality.one_to_many = Cardinality.many_to_one →
      (⟨Cardinality.one_to_many, "left", [], ["X", "X"], []⟩ :
        EngineResult).unmatched_left_ids.Nodup) :=
  c10_opposite_unmatched_nodup.1 default_registry
    [fxRec "id" "X" "e" "1", fxRec "id" "X" "e" "2"] []
    ⟨[fxExactRule "r1" 1 "e"]⟩ .one_to_many "id" "id" none _ (by decide)

theorem scoreKeyLe_iff (x y : PairScore) :
    scoreKeyLe x y = true ↔ scoreOrd x y := by
  simp [scoreKeyLe, scoreOrd]

theorem scoreKeyLe_trans : ∀ a b c : PairScore,
    scoreKeyLe a b = true → scoreKeyLe b c = true → scoreKeyLe a c = true := by
  intro a b c hab hbc
  rw [scoreKeyLe_iff] at hab hbc ⊢
  rcases hab with h1 | ⟨h1, h1n⟩ <;> rcases hbc with h2 | ⟨h2, h2n⟩
  · exact Or.inl (h2.trans h1)
  · exact Or.inl (h2 ▸ h1)
  · exact Or.inl (h1 ▸ h2)
  · exact Or.inr ⟨h1.trans h2, h1n.trans h2n⟩

theorem scoreKeyLe_total : ∀ a b : PairScore,
    (scoreKeyLe a b || scoreKeyLe b a) = true := by
  intro a b
  simp only [Bool.or_eq_true, scoreKeyLe_iff, scoreOrd]
  rcases lt_trichotomy a.total_score b.total_score with h | h | h
  · exact Or.inr (Or.inl h)
  · rcases le_total a.rule_name b.rule_name with hn | hn
    · exact Or.inl (Or.inr ⟨h, hn⟩)
    · exact Or.inr (Or.inr ⟨h.symm, hn⟩)
  · exact Or.inl (Or.inl h)

theorem sorted_entry_ok (tk : Option Nat) (scores : List PairScore) :
    (truncTopK tk (List.mergeSort (scores.filter (·.matched)) scoreKeyLe)).Pairwise scoreOrd ∧
    (∀ k, tk = some k →
      (truncTopK tk (List.mergeSort (scores.filter (·.matched)) scoreKeyLe)).length ≤ k) ∧
    ∃ dropped,
      ((truncTopK tk (List.mergeSort (scores.filter (·.matched)) scoreKeyLe)) ++
        dropped).Pairwise scoreOrd ∧
      ((truncTopK tk (List.mergeSort (scores.filter (·.matched)) scoreKeyLe)) ++
        dropped).Perm (scores.filter (·.matched)) ∧
      ∀ s ∈ (truncTopK tk (List.mergeSort (scores.filter (·.matched)) scoreKeyLe)) ++ dropped,
        s.matched = true := by
  have hsorted : (List.mergeSort (scores.filter (·.matched)) scoreKeyLe).Pairwise
      (fun a b => scoreKeyLe a b = true) :=
    List.sorted_mergeSort scoreKeyLe_trans scoreKeyLe_total _
  have hsorted' : (List.mergeSort (scores.filter (·.matched)) scoreKeyLe).Pairwise scoreOrd :=
    hsorted.imp (fun h => (scoreKeyLe_iff _ _).mp h)
  have hperm : (List.mergeSort (scores.filter (·.matched)) scoreKeyLe).Perm
      (scores.filter (·.matched)) := List.mergeSort_perm _ _
  have hmatched : ∀ s ∈ List.mergeSort (scores.filter (·.matched)) scoreKeyLe,
      s.matched = true := by
    intro s hs
    exact List.of_mem_filter (hperm.mem_iff.mp hs)
  refine ⟨?_, ?_, ?_⟩
  · cases tk with
    | none => exact hsorted'
    | some k => exact hsorted'.sublist (List.take_sublist _ _)
  · intro k hk
    cases tk with
    | none => simp at hk
    | some k2 =>
      obtain rfl : k2 = k := Option.some.inj hk
      simp [truncTopK]
  · cases tk with
    | none =>
      refine ⟨[], ?_, ?_, ?_⟩
      · rw [truncTopK, List.append_nil]
        exact hsorted'
      · rw [truncTopK, List.append_nil]
        exact hperm
      · rw [truncTopK, List.append_nil]
        exact hmatched
    | some k =>
      refine ⟨(List.mergeSort (scores.filter (·.matched)) scoreKeyLe).drop k, ?_, ?_, ?_⟩
      · simp only [truncTopK, List.take_append_drop]
        exact hsorted'
      · simp only [truncTopK, List.take_append_drop]
        exact hperm
      · simp only [truncTopK, List.take_append_drop]
        exact hmatched

theorem processRows_provenance (pairEval : Record → Record → Except PyErr PairScore)
    (others : List Record) (idField : String) (tk : Option Nat) :
    ∀ (rows : List Record) (mi : List (String × List PairScore)) (unm : List String)
      (out : List (String × List PairScore) × List String),
      processRows pairEval others idField tk rows mi unm = .ok out →
      ∀ e ∈ out.1, e ∈ mi ∨ ∃ row, row ∈ rows ∧ ∃ scores,
        others.mapM (pairEval row) = .ok scores ∧
        e = (rowId idField row,
          truncTopK tk (List.mergeSort (scores.filter (·.matched)) scoreKeyLe)) := by
  intro rows
  induction rows with
  | nil =>
    intro mi unm out h e he
    obtain rfl : (mi, unm) = out := by simpa [processRows] using h
    exact Or.inl he
  | cons row rest ih =>
    intro mi unm out h e he
    rw [processRows] at h
    cases hsc : others.mapM (pairEval row) with
    | error er => rw [hsc] at h; simp at h
    | ok scores =>
      rw [hsc] at h
      dsimp only at h
      by_cases hf : scores.filter (·.matched) = []
      · rw [if_pos hf] at h
        rcases ih mi _ out h e he with hmi | ⟨r, hr, sc, hs, hee⟩
        · exact Or.inl hmi
        · exact Or.inr ⟨r, List.mem_cons_of_mem row hr, sc, hs, hee⟩
      · rw [if_neg hf] at h
        rcases ih _ unm out h e he with hmi | ⟨r, hr, sc, hs, hee⟩
        · rcases mem_insertOverwrite _ _ _ _ hmi with hold | hnew
          · exact Or.inl hold
          · exact Or.inr ⟨row, List.mem_cons_self row rest, scores, hsc, hnew⟩
        · exact Or.inr ⟨r, List.mem_cons_of_mem row hr, sc, hs, hee⟩

/-- C7: every stored match list is sorted descending by `total_score` with
ties broken by ascending `rule_name` and contains at most `top_k` entries when
`top_k` is supplied; moreover it comes from sorting and truncating the FULL
list of matched `PairScore`s its index record produced: together with a
dropped suffix it forms a sorted permutation of all of that record's matched
scores (the row, its full score list, and the index key are exhibited), so
the kept prefix consists of the highest-scoring entries. -/
theorem c7_match_lists_sorted_truncated
    (reg : ComparatorRegistry) (L R : List Record) (rs : RuleSet) (card : Cardinality)
    (fl fr : String) (tk : Option Nat) (res : EngineResult)
    (hok : engineMatch reg L R rs card fl fr tk = .ok res) :
    ∀ e ∈ res.matches_index,
      e.2.Pairwise scoreOrd ∧ (∀ k, tk = some k → e.2.length ≤ k) ∧
      ∃ row scores dropped,
        (card = .one_to_many → row ∈ L ∧ e.1 = rowId fl row ∧
          R.mapM (fun other => evaluate_rules_for_pair reg row other rs.rules) =
            .ok scores) ∧
        (card = .many_to_one → row ∈ R ∧ e.1 = rowId fr row ∧
          L.mapM (fun other => evaluate_rules_for_pair reg other row rs.rules) =
            .ok scores) ∧
        (e.2 ++ dropped).Pairwise scoreOrd ∧
        (e.2 ++ dropped).Perm (scores.filter (·.matched)) ∧
        ∀ s ∈ e.2 ++ dropped, s.matched = true := by
  cases card with
  | one_to_many =>
    simp only [engineMatch, eq_self_iff_true, if_true] at hok
    cases hpr : processRows (fun row other => evaluate_rules_for_pair reg row other rs.rules)
        R fl tk L [] [] with
    | error e => rw [hpr] at hok; simp at hok
    | ok out =>
      rw [hpr] at hok
      obtain ⟨mi, unl⟩ := out
      dsimp only at hok
      injection hok with hres
      subst hres
      intro e he
      rcases processRows_provenance _ R fl tk L [] [] (mi, unl) hpr e he with
        hnil | ⟨row, hrow, scores, hsc, rfl⟩
      · exact absurd hnil (List.not_mem_nil e)
      · obtain ⟨hs1, hs2, dropped, hd1, hd2, hd3⟩ := sorted_entry_ok tk scores
        refine ⟨hs1, hs2, row, scores, dropped, fun _ => ⟨hrow, rfl, hsc⟩, ?_,
          hd1, hd2, hd3⟩
        intro hcontra
        exact Cardinality.noConfusion hcontra
  | many_to_one =>
    simp only [engineMatch] at hok
    rw [if_neg (by simp)] at hok
    cases hpr : processRows (fun row other => evaluate_rules_for_pair reg other row rs.rules)
        L fr tk R [] [] with
    | error e => rw [hpr] at hok; simp at hok
    | ok out =>
      rw [hpr] at hok
      obtain ⟨mi, unr⟩ := out
      dsimp only at hok
      injection hok with hres
      subst hres
      intro e he
      rcases processRows_provenance _ L fr tk R [] [] (mi, unr) hpr e he with
        hnil | ⟨row, hrow, scores, hsc, rfl⟩
      · exact absurd hnil (List.not_mem_nil e)
      · obtain ⟨hs1, hs2, dropped, hd1, hd2, hd3⟩ := sorted_entry_ok tk scores
        refine ⟨hs1, hs2, row, scores, dropped, ?_, fun _ => ⟨hrow, rfl, hsc⟩,
          hd1, hd2, hd3⟩
        intro hcontra
        exact Cardinality.noConfusion hcontra

/-- C7 witness: the property instantiated at the one stored index entry of a
concrete `one_to_many` run with `top_k = 1` (row `L1` scores `R1` matched and
`R2` unmatched, so the kept list `[score(L1,R1)]` plus a dropped suffix
permutes the full matched list). -/
theorem c7_match_lists_sorted_truncated_witness :
    ([⟨"L1", "R1", "r1", 1, true,
        [⟨"email", "email", "exact", 1, 1, true, some [("match", Value.vbool true)]⟩],
        1⟩] : List PairScore).Pairwise scoreOrd ∧
    (∀ k, (some 1 : Option Nat) = some k →
      ([⟨"L1", "R1", "r1", 1, true,
        [⟨"email", "email", "exact", 1, 1, true, some [("match", Value.vbool true)]⟩],
        1⟩] : List PairScore).length ≤ k) ∧
    ∃ row scores dropped,
      (Cardinality.one_to_many = Cardinality.one_to_many →
        row ∈ [fxRec "id" "L1" "email" "a"] ∧
        ("L1" : String) = rowId "id" row ∧
        [fxRec "id" "R1" "email" "a", fxRec "id" "R2" "email" "b"].mapM
          (fun other => evaluate_rules_for_pair default_registry row other
            [fxExactRule "r1" 1 "email"]) = .ok scores) ∧
      (Cardinality.one_to_many = Cardinality.many_to_one →
        row ∈ [fxRec "id" "R1" "email" "a", fxRec "id" "R2" "email" "b"] ∧
        ("L1" : String) = rowId "id" row ∧
        [fxRec "id" "L1" "email" "a"].mapM
          (fun other => evaluate_rules_for_pair default_registry other row
            [fxExactRule "r1" 1 "email"]) = .ok scores) ∧
      (([⟨"L1", "R1", "r1", 1, true,
        [⟨"email", "email", "exact", 1, 1, true, some [("match", Value.vbool true)]⟩],
        1⟩] : List PairScore) ++ dropped).Pairwise scoreOrd ∧
      (([⟨"L1", "R1", "r1", 1, true,
        [⟨"email", "email", "exact", 1, 1, true, some [("match", Value.vbool true)]⟩],
        1⟩] : List PairScore) ++ dropped).Perm (scores.filter (·.matched)) ∧
      ∀ s ∈ ([⟨"L1", "R1", "r1", 1, true,
        [⟨"email", "email", "exact", 1, 1, true, some [("match", Value.vbool true)]⟩],
        1⟩] : List PairScore) ++ dropped, s.matched = true :=
  c7_match_lists_sorted_truncated default_registry [fxRec "id" "L1" "email" "a"]
    [fxRec "id" "R1" "email" "a", fxRec "id" "R2" "email" "b"]
    ⟨[fxExactRule "r1" 1 "email"]⟩ .one_to_many "id" "id" (some 1)
    ⟨Cardinality.one_to_many, "left",
      [("L1", [⟨"L1", "R1", "r1", 1, true,
        [⟨"email", "email", "exact", 1, 1, true, some [("match", Value.vbool true)]⟩],
        1⟩])], [], ["R2"]⟩ (by decide)
    ("L1", [⟨"L1", "R1", "r1", 1, true,
        [⟨"email", "email", "exact", 1, 1, true, some [("match", Value.vbool true)]⟩],
        1⟩]) (by decide)

/-- C9 (amended): when pair evaluation reaches an unregistered comparator
name — here: both record lists non-empty and the unregistered name in the
first binding of the first stored rule, so the very first evaluated pair
reaches it — the whole `match` call fails with `NotFound` carrying the sorted
registered names, and no partial result is produced. -/
theorem c9_unknown_comparator_fails_whole_match
    (reg : ComparatorRegistry) (l0 r0 : Record) (Lt Rt : List Record)
    (rl0 : Rule) (rulesT : List Rule) (card : Cardinality)
    (fl fr : String) (tk : Option Nat)
    (fc0 : FieldComparatorConfig) (fcT : List FieldComparatorConfig)
    (hfields : rl0.fields = fc0 :: fcT)
    (hmiss : alookup reg (normName fc0.comparator) = none) :
    engineMatch reg (l0 :: Lt) (r0 :: Rt) ⟨rl0 :: rulesT⟩ card fl fr tk
      = .error (.notFound fc0.comparator (ComparatorRegistry.names reg)) := by
  have hpair : evaluate_rules_for_pair reg l0 r0 (rl0 :: rulesT)
      = .error (.notFound fc0.comparator (ComparatorRegistry.names reg)) := by
    rw [evaluate_rules_for_pair, evalRulesGo, score_pair, hfields, scoreFields,
      evalBinding, ComparatorRegistry.evaluate, ComparatorRegistry.get, hmiss]
  cases card with
  | one_to_many =>
    simp only [engineMatch, eq_self_iff_true, if_true, processRows, List.mapM_cons,
      hpair]
    rfl
  | many_to_one =>
    simp only [engineMatch]
    rw [if_neg (by simp)]
    simp only [processRows, List.mapM_cons, hpair]
    rfl

/-- C9 witness. -/
theorem c9_unknown_comparator_fails_whole_match_witness :
    engineMatch default_registry [fxRec "id" "L1" "email" "a"] [fxRec "id" "R1" "email" "a"]
      ⟨[fxCmpRule "r1" 1 "email" "nope"]⟩ .one_to_many "id" "id" none
      = .error (.notFound "nope" (ComparatorRegistry.names default_registry)) :=
  c9_unknown_comparator_fails_whole_match default_registry (fxRec "id" "L1" "email" "a")
    (fxRec "id" "R1" "email" "a") [] [] (fxCmpRule "r1" 1 "email" "nope") []
    .one_to_many "id" "id" none
    { left_field := "email", right_field := "email", comparator := "nope" } []
    (by decide) rfl

theorem mapM_ok_cons {α β : Type} (f : α → Except PyErr β) (a : α) (as : List α)
    (out : List β) (h : (a :: as).mapM f = .ok out) :
    ∃ b bs, f a = .ok b ∧ as.mapM f = .ok bs ∧ out = b :: bs := by
  rw [List.mapM_cons] at h
  rw [except_bind_ok] at h
  obtain ⟨b, hb, h2⟩ := h
  rw [except_bind_ok] at h2
  obtain ⟨bs, hbs, h3⟩ := h2
  refine ⟨b, bs, hb, hbs, ?_⟩
  simpa [pure, Except.pure] using h3.symm

theorem evalRulesGo_first_match (reg : ComparatorRegistry) (l r : Record)
    (rules0 : List Rule) :
    ∀ (pre : List Rule) (best : Option PairScore) (rl : Rule) (tail : List Rule)
      (ps : PairScore),
      (∀ r' ∈ pre, ∃ q, score_pair reg l r r' = .ok q ∧ q.matched = false) →
      score_pair reg l r rl = .ok ps → ps.matched = true →
      evalRulesGo reg l r rules0 best (pre ++ rl :: tail) = .ok ps := by
  intro pre
  induction pre with
  | nil =>
    intro best rl tail ps _ hps hm
    rw [List.nil_append, evalRulesGo, hps]
    dsimp only
    rw [hm]
    rfl
  | cons r' pre ih =>
    intro best rl tail ps hpre hps hm
    obtain ⟨q, hq, hqm⟩ := hpre r' (List.mem_cons_self _ _)
    rw [List.cons_append, evalRulesGo, hq]
    dsimp only
    rw [hqm]
    exact ih _ rl tail ps (fun x hx => hpre x (List.mem_cons_of_mem _ hx)) hps hm

theorem evalRulesGo_all_unmatched (reg : ComparatorRegistry) (l r : Record)
    (rules0 : List Rule) :
    ∀ (rules : List Rule) (qs : List PairScore) (b : PairScore),
      rules.mapM (score_pair reg l r) = .ok qs →
      (∀ q ∈ qs, q.matched = false) →
      evalRulesGo reg l r rules0 (some b) rules = .ok (bestOf b qs) := by
  intro rules
  induction rules with
  | nil =>
    intro qs b h _
    rw [List.mapM_nil] at h
    simp only [pure, Except.pure, Except.ok.injEq] at h
    subst h
    rfl
  | cons rl rest ih =>
    intro qs b h hall
    obtain ⟨q, qrest, hq, hrest, rfl⟩ := mapM_ok_cons _ _ _ _ h
    rw [evalRulesGo, hq]
    dsimp only
    rw [hall q (List.mem_cons_self _ _)]
    have step : evalRulesGo reg l r rules0 (updateBest (some b) q) rest
        = .ok (bestOf (if b.total_score < q.total_score then q else b) qrest) := by
      rw [updateBest]
      split
      · exact ih qrest q hrest (fun x hx => hall x (List.mem_cons_of_mem _ hx))
      · exact ih qrest b hrest (fun x hx => hall x (List.mem_cons_of_mem _ hx))
    exact step

theorem bestOf_first_max :
    ∀ (qs : List PairScore) (b : PairScore),
      ∃ (qpre : List PairScore) (q : PairScore) (qpost : List PairScore),
        b :: qs = qpre ++ q :: qpost ∧ bestOf b qs = q ∧
        (∀ x ∈ qpre, x.total_score < q.total_score) ∧
        (∀ x ∈ qpost, x.total_score ≤ q.total_score) := by
  intro qs
  induction qs with
  | nil =>
    intro b
    exact ⟨[], b, [], rfl, rfl, by simp, by simp⟩
  | cons q1 rest ih =>
    intro b
    have hstep : bestOf b (q1 :: rest)
        = bestOf (if b.total_score < q1.total_score then q1 else b) rest := rfl
    by_cases hlt : b.total_score < q1.total_score
    · obtain ⟨pre', q, post', hsplit, hbest, hpre, hpost⟩ := ih q1
      refine ⟨b :: pre', q, post', by rw [List.cons_append, ← hsplit], ?_, ?_, hpost⟩
      · rw [hstep, if_pos hlt]
        exact hbest
      · intro x hx
        rcases List.mem_cons.mp hx with rfl | hx'
        · cases pre' with
          | nil =>
            obtain ⟨rfl, -⟩ := List.cons.inj (by simpa using hsplit)
            exact hlt
          | cons p pre'' =>
            obtain ⟨rfl, -⟩ := List.cons.inj (by simpa using hsplit)
            exact hlt.trans (hpre _ (List.mem_cons_self _ _))
        · exact hpre x hx'
    · obtain ⟨pre', q, post', hsplit, hbest, hpre, hpost⟩ := ih b
      cases pre' with
      | nil =>
        obtain ⟨rfl, rfl⟩ := List.cons.inj (by simpa using hsplit)
        refine ⟨[], b, q1 :: rest, rfl, by rw [hstep, if_neg hlt]; exact hbest, by simp, ?_⟩
        intro x hx
        rcases List.mem_cons.mp hx with rfl | hx'
        · exact not_lt.mp hlt
        · exact hpost x hx'
      | cons p pre'' =>
        obtain ⟨rfl, hrest⟩ := List.cons.inj (by simpa using hsplit)
        refine ⟨b :: q1 :: pre'', q, post',
          by rw [List.cons_append, List.cons_append, ← hrest], ?_, ?_, hpost⟩
        · rw [hstep, if_neg hlt]
          exact hbest
        · intro x hx
          have hbq : b.total_score < q.total_score := hpre b (List.mem_cons_self _ _)
          rcases List.mem_cons.mp hx with rfl | hx'
          · exact hbq
          · rcases List.mem_cons.mp hx' with rfl | hx2
            · exact lt_of_le_of_lt (not_lt.mp hlt) hbq
            · exact hpre x (List.mem_cons_of_mem _ hx2)

/-- C4: rules are evaluated in the stored order; the first rule whose
`PairScore` is `matched` is returned immediately and everything after it is
irrelevant (the `tail` below is arbitrary, so later rules are never
consulted, whatever their `stop_on_first_rule_match` flags); if no rule
matches, the `PairScore` with the strictly highest `total_score` is returned,
ties resolved in favor of the rule evaluated first. -/
theorem c4_rule_evaluation_order (reg : ComparatorRegistry) (l r : Record) :
    (∀ (pre : List Rule) (rl : Rule) (tail : List Rule) (ps : PairScore),
      (∀ r' ∈ pre, ∃ q, score_pair reg l r r' = .ok q ∧ q.matched = false) →
      score_pair reg l r rl = .ok ps → ps.matched = true →
      evaluate_rules_for_pair reg l r (pre ++ rl :: tail) = .ok ps) ∧
    (∀ (rules : List Rule) (qs : List PairScore),
      rules.mapM (score_pair reg l r) = .ok qs →
      (∀ q ∈ qs, q.matched = false) →
      rules ≠ [] →
      ∃ (qpre : List PairScore) (q : PairScore) (qpost : List PairScore),
        qs = qpre ++ q :: qpost ∧
        evaluate_rules_for_pair reg l r rules = .ok q ∧
        (∀ x ∈ qpre, x.total_score < q.total_score) ∧
        (∀ x ∈ qpost, x.total_score ≤ q.total_score)) := by
  constructor
  · intro pre rl tail ps hpre hps hm
    exact evalRulesGo_first_match reg l r _ pre none rl tail ps hpre hps hm
  · intro rules qs hmap hall hne
    cases rules with
    | nil => exact absurd rfl hne
    | cons rl rest =>
      obtain ⟨q1, qrest, hq1, hrest, rfl⟩ := mapM_ok_cons _ _ _ _ hmap
      obtain ⟨qpre, q, qpost, hsplit, hbest, hpre, hpost⟩ := bestOf_first_max qrest q1
      refine ⟨qpre, q, qpost, hsplit, ?_, hpre, hpost⟩
      rw [evaluate_rules_for_pair, evalRulesGo, hq1]
      dsimp only
      rw [hall q1 (List.mem_cons_self _ _)]
      have : updateBest none q1 = some q1 := rfl
      rw [this]
      rw [evalRulesGo_all_unmatched reg l r _ rest qrest q1 hrest
        (fun x hx => hall x (List.mem_cons_of_mem _ hx)), hbest]
      simp

/-- C4 witness: the first (priority-1) rule matches the pair, so evaluation
returns its score even though the tail rule references an unregistered
comparator — later rules are never consulted. -/
theorem c4_rule_evaluation_order_witness :
    evaluate_rules_for_pair default_registry (fxRec "id" "L1" "email" "a")
      (fxRec "id" "R1" "email" "a")
      ([] ++ fxExactRule "r1" 1 "email" :: [fxCmpRule "r2" 2 "email" "nope"])
      = .ok ⟨"L1", "R1", "r1", 1, true,
          [⟨"email", "email", "exact", 1, 1, true, some [("match", Value.vbool true)]⟩],
          1⟩ :=
  (c4_rule_evaluation_order default_registry (fxRec "id" "L1" "email" "a")
      (fxRec "id" "R1" "email" "a")).1
    [] (fxExactRule "r1" 1 "email") [fxCmpRule "r2" 2 "email" "nope"] _
    (by intro r' hr'; simp at hr') (by decide) (by decide)

theorem ruleKeyLe_iff (x y : Rule) : ruleKeyLe x y = true ↔ ruleOrd x y := by
  simp [ruleKeyLe, ruleOrd]

theorem ruleKeyLe_trans : ∀ a b c : Rule,
    ruleKeyLe a b = true → ruleKeyLe b c = true → ruleKeyLe a c = true := by
  intro a b c hab hbc
  rw [ruleKeyLe_iff] at hab hbc ⊢
  rcases hab with h1 | ⟨h1, h1n⟩ <;> rcases hbc with h2 | ⟨h2, h2n⟩
  · exact Or.inl (h1.trans h2)
  · exact Or.inl (h2 ▸ h1)
  · exact Or.inl (h1 ▸ h2)
  · exact Or.inr ⟨h1.trans h2, h1n.trans h2n⟩

theorem ruleKeyLe_total : ∀ a b : Rule, (ruleKeyLe a b || ruleKeyLe b a) = true := by
  intro a b
  simp only [Bool.or_eq_true, ruleKeyLe_iff, ruleOrd]
  rcases lt_trichotomy a.priority b.priority with h | h | h
  · exact Or.inl (Or.inl h)
  · rcases le_total a.name b.name with hn | hn
    · exact Or.inl (Or.inr ⟨h, hn⟩)
    · exact Or.inr (Or.inr ⟨h.symm, hn⟩)
  · exact Or.inr (Or.inl h)

/-- C8: constructing a RuleSet from any non-empty rule list succeeds and
stores the rules sorted ascending by `(priority, name)` (a permutation of the
input, computed once at construction); and this stored list is the engine's
per-pair evaluation order: whenever the stored list splits as
`pre ++ rl :: tail` with every rule of `pre` scoring unmatched and `rl`
matching, per-pair evaluation returns the score of `rl`. -/
theorem c8_ruleset_sorted_by_priority_name (rules : List Rule) (hne : rules ≠ []) :
    ∃ rs : RuleSet, mkRuleSet rules = .ok rs ∧
      rs.rules.Pairwise ruleOrd ∧ rs.rules.Perm rules ∧
      (∀ (reg : ComparatorRegistry) (l r : Record) (pre : List Rule) (rl : Rule)
        (tail : List Rule) (ps : PairScore),
        rs.rules = pre ++ rl :: tail →
        (∀ r' ∈ pre, ∃ q, score_pair reg l r r' = .ok q ∧ q.matched = false) →
        score_pair reg l r rl = .ok ps → ps.matched = true →
        evaluate_rules_for_pair reg l r rs.rules = .ok ps) := by
  refine ⟨⟨List.mergeSort rules ruleKeyLe⟩, ?_, ?_, ?_, ?_⟩
  · rw [mkRuleSet, if_neg hne]
  · exact (List.sorted_mergeSort ruleKeyLe_trans ruleKeyLe_total rules).imp
      (fun h => (ruleKeyLe_iff _ _).mp h)
  · exact List.mergeSort_perm rules ruleKeyLe
  · intro reg l r pre rl tail ps hsplit hpre hps hm
    dsimp only at hsplit ⊢
    rw [hsplit, evaluate_rules_for_pair]
    exact evalRulesGo_first_match reg l r _ pre none rl tail ps hpre hps hm

/-- C8 witness. -/
theorem c8_ruleset_sorted_by_priority_name_witness :
    ∃ rs : RuleSet, mkRuleSet [fxExactRule "b" 2 "email", fxExactRule "a" 2 "email",
        fxExactRule "c" 1 "email"] = .ok rs ∧
      rs.rules.Pairwise ruleOrd ∧
      rs.rules.Perm [fxExactRule "b" 2 "email", fxExactRule "a" 2 "email",
        fxExactRule "c" 1 "email"] ∧
      (∀ (reg : ComparatorRegistry) (l r : Record) (pre : List Rule) (rl : Rule)
        (tail : List Rule) (ps : PairScore),
        rs.rules = pre ++ rl :: tail →
        (∀ r' ∈ pre, ∃ q, score_pair reg l r r' = .ok q ∧ q.matched = false) →
        score_pair reg l r rl = .ok ps → ps.matched = true →
        evaluate_rules_for_pair reg l r rs.rules = .ok ps) :=
  c8_ruleset_sorted_by_priority_name
    [fxExactRule "b" 2 "email", fxExactRule "a" 2 "email", fxExactRule "c" 1 "email"]
    (by decide)

theorem mapM_ok_length {α β : Type} (f : α → Except PyErr β) :
    ∀ (as : List α) (bs : List β), as.mapM f = .ok bs → bs.length = as.length := by
  intro as
  induction as with
  | nil =>
    intro bs h
    rw [List.mapM_nil] at h
    simp only [pure, Except.pure, Except.ok.injEq] at h
    subst h
    rfl
  | cons a rest ih =>
    intro bs h
    obtain ⟨b, brest, _, hrest, rfl⟩ := mapM_ok_cons _ _ _ _ h
    simp [ih brest hrest]

theorem scoreFields_spec (reg : ComparatorRegistry) (l r : Record) (rule : Rule) :
    ∀ (fields : List FieldComparatorConfig) (sds : List (ℚ × Dict)),
      fields.mapM (evalBinding reg l r rule) = .ok sds →
      scoreFields reg l r rule fields = .ok
        (((fields.zip sds).map (fun p => p.2.1 * p.1.weight)).sum,
         decide (∀ p ∈ fields.zip sds, p.1.must = true → p.1.threshold.getD 0 ≤ p.2.1),
         (fields.zip sds).map (fun p =>
           ⟨p.1.left_field, p.1.right_field, p.1.comparator, p.1.weight, p.2.1,
            decide (p.1.threshold.getD 0 ≤ p.2.1), some p.2.2⟩)) := by
  intro fields
  induction fields with
  | nil =>
    intro sds h
    rw [List.mapM_nil] at h
    simp only [pure, Except.pure, Except.ok.injEq] at h
    subst h
    simp [scoreFields]
  | cons fc rest ih =>
    intro sds h
    obtain ⟨sd, sdrest, hsd, hrest, rfl⟩ := mapM_ok_cons _ _ _ _ h
    rw [scoreFields, hsd]
    dsimp only
    rw [ih sdrest hrest]
    dsimp only
    congr 1
    refine Prod.ext ?_ (Prod.ext ?_ ?_)
    · dsimp only
      rw [qadd_eq, qmul_eq]
      simp [List.zip_cons_cons]
    · dsimp only
      simp only [List.zip_cons_cons, List.forall_mem_cons, decide_eq_true_eq]
      by_cases hmust : fc.must
      · by_cases hth : fc.threshold.getD 0 ≤ sd.1
        · simp [hmust, hth]
        · simp [hmust, hth]
      · simp [hmust]
    · dsimp only
      simp [List.zip_cons_cons]

/-- C5: given that every binding evaluates (to the score/details list `sds`),
`_score_pair` returns a `PairScore` whose `total_score` is the weighted mean
(`0.0` on zero total weight), whose `matched` holds exactly when every
`must` binding reaches its effective threshold and the mean reaches the rule
threshold, where a failing `must` binding forces `matched = false`
unconditionally, and which carries one `FieldScore` per binding (all
computed and returned). -/
theorem c5_score_pair_aggregation (reg : ComparatorRegistry) (l r : Record) (rule : Rule)
    (sds : List (ℚ × Dict))
    (h : rule.fields.mapM (evalBinding reg l r rule) = .ok sds) :
    ∃ ps, score_pair reg l r rule = .ok ps ∧
      ps.total_score = (if 0 < (rule.fields.map (·.weight)).sum
        then ((rule.fields.zip sds).map (fun p => p.2.1 * p.1.weight)).sum /
          (rule.fields.map (·.weight)).sum
        else 0) ∧
      (ps.matched = true ↔
        ((∀ p ∈ rule.fields.zip sds, p.1.must = true → p.1.threshold.getD 0 ≤ p.2.1) ∧
          rule.match_threshold ≤ ps.total_score)) ∧
      ((∃ p ∈ rule.fields.zip sds, p.1.must = true ∧ p.2.1 < p.1.threshold.getD 0) →
        ps.matched = false) ∧
      ps.field_scores = (rule.fields.zip sds).map (fun p =>
        ⟨p.1.left_field, p.1.right_field, p.1.comparator, p.1.weight, p.2.1,
          decide (p.1.threshold.getD 0 ≤ p.2.1), some p.2.2⟩) ∧
      ps.field_scores.length = rule.fields.length := by
  rw [score_pair, scoreFields_spec reg l r rule rule.fields sds h]
  dsimp only
  refine ⟨_, rfl, ?_, ?_, ?_, rfl, ?_⟩
  · dsimp only
    rw [qsum_eq, qdiv_eq]
  · dsimp only
    rw [qsum_eq, qdiv_eq]
    by_cases hw : 0 < (rule.fields.map (·.weight)).sum
    · simp only [if_pos hw, Bool.and_eq_true, decide_eq_true_eq]
    · simp only [if_neg hw, Bool.and_eq_true, decide_eq_true_eq]
  · rintro ⟨p, hp, hmust, hlt⟩
    dsimp only
    refine Bool.eq_false_iff.mpr ?_
    intro hcontra
    rw [Bool.and_eq_true, decide_eq_true_eq] at hcontra
    exact absurd (hcontra.1 p hp hmust) (not_le.mpr hlt)
  · rw [List.length_map, List.length_zip, mapM_ok_length _ _ _ h, Nat.min_self]

/-- C5 witness: on records agreeing on `email` (weight 1) and differing on
`phone` (weight 0, `must = true`, threshold 0.5), the aggregate is `1.0` yet
the failing must-binding forces `matched = false`, and both `FieldScore`s are
returned. -/
theorem c5_score_pair_aggregation_witness :
    ∃ ps, score_pair default_registry (fxRec3 "L1" "a" "1") (fxRec3 "R1" "a" "2")
        fxMustRule = .ok ps ∧
      ps.total_score = (if 0 < (fxMustRule.fields.map (·.weight)).sum
        then ((fxMustRule.fields.zip fxMustSds).map (fun p => p.2.1 * p.1.weight)).sum /
          (fxMustRule.fields.map (·.weight)).sum
        else 0) ∧
      (ps.matched = true ↔
        ((∀ p ∈ fxMustRule.fields.zip fxMustSds,
            p.1.must = true → p.1.threshold.getD 0 ≤ p.2.1) ∧
          fxMustRule.match_threshold ≤ ps.total_score)) ∧
      ((∃ p ∈ fxMustRule.fields.zip fxMustSds,
          p.1.must = true ∧ p.2.1 < p.1.threshold.getD 0) →
        ps.matched = false) ∧
      ps.field_scores = (fxMustRule.fields.zip fxMustSds).map (fun p =>
        ⟨p.1.left_field, p.1.right_field, p.1.comparator, p.1.weight, p.2.1,
          decide (p.1.threshold.getD 0 ≤ p.2.1), some p.2.2⟩) ∧
      ps.field_scores.length = fxMustRule.fields.length :=
  c5_score_pair_aggregation default_registry (fxRec3 "L1" "a" "1") (fxRec3 "R1" "a" "2")
    fxMustRule fxMustSds (by decide)

/-! ## Bounds for `SequenceMatcher` blocks and `ratio` -/

theorem flmInner_bounds (old : Nat → Nat) (i blo bhi c alo ahi : Nat)
    (hold : ∀ x, old x ≤ c ∧ old x ≤ x + 1 - blo)
    (hiahi : i < ahi) (hci : c + alo ≤ i) :
    ∀ (js : List Nat) (newj : Nat → Nat) (best : FlmBest),
      (∀ x, newj x ≤ c + 1 ∧ newj x ≤ x + 1 - blo) →
      alo ≤ best.bi → best.bi + best.bs ≤ ahi → blo ≤ best.bj → best.bj + best.bs ≤ bhi →
      (∀ x, (flmInner old i blo bhi js newj best).1 x ≤ c + 1 ∧
        (flmInner old i blo bhi js newj best).1 x ≤ x + 1 - blo) ∧
      (alo ≤ (flmInner old i blo bhi js newj best).2.bi ∧
        (flmInner old i blo bhi js newj best).2.bi +
          (flmInner old i blo bhi js newj best).2.bs ≤ ahi ∧
        blo ≤ (flmInner old i blo bhi js newj best).2.bj ∧
        (flmInner old i blo bhi js newj best).2.bj +
          (flmInner old i blo bhi js newj best).2.bs ≤ bhi) := by
  intro js
  induction js with
  | nil =>
    intro newj best hnew h1 h2 h3 h4
    exact ⟨hnew, h1, h2, h3, h4⟩
  | cons j js ih =>
    intro newj best hnew h1 h2 h3 h4
    rw [flmInner]
    by_cases hjlo : j < blo
    · rw [if_pos hjlo]
      exact ih newj best hnew h1 h2 h3 h4
    · rw [if_neg hjlo]
      by_cases hjhi : bhi ≤ j
      · rw [if_pos hjhi]
        exact ⟨hnew, h1, h2, h3, h4⟩
      · rw [if_neg hjhi]
        have hk1 : (if j = 0 then 0 else old (j - 1)) + 1 ≤ c + 1 := by
          split
          · omega
          · have := (hold (j - 1)).1
            omega
        have hk2 : (if j = 0 then 0 else old (j - 1)) + 1 ≤ j + 1 - blo := by
          split
          · omega
          · have := (hold (j - 1)).2
            omega
        have hbest : ∀ best' : FlmBest,
            best' = (if best.bs < (if j = 0 then 0 else old (j - 1)) + 1 then
              (⟨i + 1 - ((if j = 0 then 0 else old (j - 1)) + 1),
                j + 1 - ((if j = 0 then 0 else old (j - 1)) + 1),
                (if j = 0 then 0 else old (j - 1)) + 1⟩ : FlmBest) else best) →
            alo ≤ best'.bi ∧ best'.bi + best'.bs ≤ ahi ∧ blo ≤ best'.bj ∧
              best'.bj + best'.bs ≤ bhi := by
          intro best' hb
          subst hb
          by_cases hmb : best.bs < (if j = 0 then 0 else old (j - 1)) + 1
          · rw [if_pos hmb]
            dsimp only
            omega
          · rw [if_neg hmb]
            exact ⟨h1, h2, h3, h4⟩
        obtain ⟨hb1, hb2, hb3, hb4⟩ := hbest _ rfl
        refine ih _ _ ?_ hb1 hb2 hb3 hb4
        intro x
        dsimp only
        split
        · exact ⟨hk1, by omega⟩
        · exact hnew x

theorem flmOuter_bounds (a b : List Char) (alo ahi blo bhi : Nat) :
    ∀ (n i0 : Nat) (j2l : Nat → Nat) (best : FlmBest),
      alo ≤ i0 → i0 + n ≤ ahi →
      (∀ x, j2l x ≤ i0 - alo ∧ j2l x ≤ x + 1 - blo) →
      alo ≤ best.bi → best.bi + best.bs ≤ ahi → blo ≤ best.bj → best.bj + best.bs ≤ bhi →
      alo ≤ (flmOuter a b blo bhi (List.range' i0 n) j2l best).2.bi ∧
        (flmOuter a b blo bhi (List.range' i0 n) j2l best).2.bi +
          (flmOuter a b blo bhi (List.range' i0 n) j2l best).2.bs ≤ ahi ∧
        blo ≤ (flmOuter a b blo bhi (List.range' i0 n) j2l best).2.bj ∧
        (flmOuter a b blo bhi (List.range' i0 n) j2l best).2.bj +
          (flmOuter a b blo bhi (List.range' i0 n) j2l best).2.bs ≤ bhi := by
  intro n
  induction n with
  | zero =>
    intro i0 j2l best _ _ _ h1 h2 h3 h4
    exact ⟨h1, h2, h3, h4⟩
  | succ n ih =>
    intro i0 j2l best hlo hhi hj h1 h2 h3 h4
    rw [List.range'_succ, flmOuter]
    have hinner := flmInner_bounds j2l i0 blo bhi (i0 - alo) alo ahi hj
      (by omega) (by omega) (b2jOf b (a.getD i0 ' ')) (fun _ => 0) best
      (by intro x; dsimp only; omega) h1 h2 h3 h4
    cases hfl : flmInner j2l i0 blo bhi (b2jOf b (a.getD i0 ' ')) (fun _ => 0) best with
    | mk newj best' =>
      rw [hfl] at hinner
      dsimp only at hinner
      obtain ⟨hnew, hb1, hb2, hb3, hb4⟩ := hinner
      exact ih (i0 + 1) newj best' (by omega) (by omega)
        (by intro x; have := hnew x; omega) hb1 hb2 hb3 hb4

theorem extendLeft_bounds (a b : List Char) (alo blo ahi bhi : Nat) :
    ∀ (bi bj bs : Nat), alo ≤ bi → bi + bs ≤ ahi → blo ≤ bj → bj + bs ≤ bhi →
      alo ≤ (extendLeft a b alo blo bi bj bs).bi ∧
        (extendLeft a b alo blo bi bj bs).bi + (extendLeft a b alo blo bi bj bs).bs ≤ ahi ∧
        blo ≤ (extendLeft a b alo blo bi bj bs).bj ∧
        (extendLeft a b alo blo bi bj bs).bj + (extendLeft a b alo blo bi bj bs).bs ≤ bhi := by
  intro bi
  induction bi with
  | zero =>
    intro bj bs h1 h2 h3 h4
    cases bj with
    | zero => exact ⟨h1, h2, h3, h4⟩
    | succ m => exact ⟨h1, h2, h3, h4⟩
  | succ n ih =>
    intro bj bs h1 h2 h3 h4
    cases bj with
    | zero => exact ⟨h1, h2, h3, h4⟩
    | succ m =>
      rw [extendLeft]
      split
      · exact ih m (bs + 1) (by omega) (by omega) (by omega) (by omega)
      · exact ⟨h1, h2, h3, h4⟩

theorem extendRightGo_bounds (a b : List Char) (ahi bhi bi bj : Nat) :
    ∀ (fuel bs : Nat) (alo blo : Nat), alo ≤ bi → bi + bs ≤ ahi → blo ≤ bj → bj + bs ≤ bhi →
      alo ≤ (extendRightGo a b ahi bhi bi bj fuel bs).bi ∧
        (extendRightGo a b ahi bhi bi bj fuel bs).bi +
          (extendRightGo a b ahi bhi bi bj fuel bs).bs ≤ ahi ∧
        blo ≤ (extendRightGo a b ahi bhi bi bj fuel bs).bj ∧
        (extendRightGo a b ahi bhi bi bj fuel bs).bj +
          (extendRightGo a b ahi bhi bi bj fuel bs).bs ≤ bhi := by
  intro fuel
  induction fuel with
  | zero =>
    intro bs alo blo h1 h2 h3 h4
    exact ⟨h1, h2, h3, h4⟩
  | succ n ih =>
    intro bs alo blo h1 h2 h3 h4
    rw [extendRightGo]
    split
    · rename_i hcond
      exact ih (bs + 1) alo blo h1 (by omega) h3 (by omega)
    · exact ⟨h1, h2, h3, h4⟩

theorem findLongestMatch_bounds (a b : List Char) (alo ahi blo bhi : Nat)
    (hab : alo ≤ ahi) (hbb : blo ≤ bhi) :
    alo ≤ (findLongestMatch a b alo ahi blo bhi).bi ∧
      (findLongestMatch a b alo ahi blo bhi).bi +
        (findLongestMatch a b alo ahi blo bhi).bs ≤ ahi ∧
      blo ≤ (findLongestMatch a b alo ahi blo bhi).bj ∧
      (findLongestMatch a b alo ahi blo bhi).bj +
        (findLongestMatch a b alo ahi blo bhi).bs ≤ bhi := by
  rw [findLongestMatch]
  cases hout : flmOuter a b blo bhi (List.range' alo (ahi - alo)) (fun _ => 0)
      ⟨alo, blo, 0⟩ with
  | mk j2l best =>
    have houter := flmOuter_bounds a b alo ahi blo bhi (ahi - alo) alo (fun _ => 0)
      ⟨alo, blo, 0⟩ (le_refl alo) (by omega) (by intro x; dsimp only; omega)
      (le_refl alo) (by simpa using hab) (le_refl blo) (by simpa using hbb)
    rw [hout] at houter
    obtain ⟨hb1, hb2, hb3, hb4⟩ := houter
    have hleft := extendLeft_bounds a b alo blo ahi bhi best.bi best.bj best.bs
      hb1 hb2 hb3 hb4
    obtain ⟨hl1, hl2, hl3, hl4⟩ := hleft
    exact extendRightGo_bounds a b ahi bhi _ _ _ _ alo blo hl1 hl2 hl3 hl4

theorem blockSum_append (x y : List (Nat × Nat × Nat)) :
    blockSum (x ++ y) = blockSum x + blockSum y := by
  simp [blockSum]

theorem mbAux_sum_le (a b : List Char) :
    ∀ (fuel alo ahi blo bhi : Nat), alo ≤ ahi → blo ≤ bhi →
      blockSum (mbAux a b fuel alo ahi blo bhi) + alo ≤ ahi ∧
        blockSum (mbAux a b fuel alo ahi blo bhi) + blo ≤ bhi := by
  intro fuel
  induction fuel with
  | zero =>
    intro alo ahi blo bhi h1 h2
    simp only [mbAux, blockSum, List.map_nil, List.sum_nil]
    omega
  | succ n ih =>
    intro alo ahi blo bhi h1 h2
    obtain ⟨hm1, hm2, hm3, hm4⟩ := findLongestMatch_bounds a b alo ahi blo bhi h1 h2
    rw [mbAux]
    by_cases hbs : (findLongestMatch a b alo ahi blo bhi).bs = 0
    · rw [if_pos hbs]
      simp only [blockSum, List.map_nil, List.sum_nil]
      omega
    · rw [if_neg hbs, blockSum_append, blockSum_append]
      have hL :
          blockSum (if alo < (findLongestMatch a b alo ahi blo bhi).bi ∧
              blo < (findLongestMatch a b alo ahi blo bhi).bj then
            mbAux a b n alo (findLongestMatch a b alo ahi blo bhi).bi blo
              (findLongestMatch a b alo ahi blo bhi).bj
          else []) + alo ≤ (findLongestMatch a b alo ahi blo bhi).bi ∧
          blockSum (if alo < (findLongestMatch a b alo ahi blo bhi).bi ∧
              blo < (findLongestMatch a b alo ahi blo bhi).bj then
            mbAux a b n alo (findLongestMatch a b alo ahi blo bhi).bi blo
              (findLongestMatch a b alo ahi blo bhi).bj
          else []) + blo ≤ (findLongestMatch a b alo ahi blo bhi).bj := by
        split
        · rename_i hc
          exact ih alo _ blo _ (Nat.le_of_lt hc.1) (Nat.le_of_lt hc.2)
        · simp only [blockSum, List.map_nil, List.sum_nil]
          omega
      have hR :
          blockSum (if (findLongestMatch a b alo ahi blo bhi).bi +
                (findLongestMatch a b alo ahi blo bhi).bs < ahi ∧
              (findLongestMatch a b alo ahi blo bhi).bj +
                (findLongestMatch a b alo ahi blo bhi).bs < bhi then
            mbAux a b n ((findLongestMatch a b alo ahi blo bhi).bi +
                (findLongestMatch a b alo ahi blo bhi).bs) ahi
              ((findLongestMatch a b alo ahi blo bhi).bj +
                (findLongestMatch a b alo ahi blo bhi).bs) bhi
          else []) + ((findLongestMatch a b alo ahi blo bhi).bi +
            (findLongestMatch a b alo ahi blo bhi).bs) ≤ ahi ∧
          blockSum (if (findLongestMatch a b alo ahi blo bhi).bi +
                (findLongestMatch a b alo ahi blo bhi).bs < ahi ∧
              (findLongestMatch a b alo ahi blo bhi).bj +
                (findLongestMatch a b alo ahi blo bhi).bs < bhi then
            mbAux a b n ((findLongestMatch a b alo ahi blo bhi).bi +
                (findLongestMatch a b alo ahi blo bhi).bs) ahi
              ((findLongestMatch a b alo ahi blo bhi).bj +
                (findLongestMatch a b alo ahi blo bhi).bs) bhi
          else []) + ((findLongestMatch a b alo ahi blo bhi).bj +
            (findLongestMatch a b alo ahi blo bhi).bs) ≤ bhi := by
        split
        · rename_i hc
          exact ih _ ahi _ bhi (Nat.le_of_lt hc.1) (Nat.le_of_lt hc.2)
        · simp only [blockSum, List.map_nil, List.sum_nil]
          omega
      have hmid : blockSum [((findLongestMatch a b alo ahi blo bhi).bi,
          (findLongestMatch a b alo ahi blo bhi).bj,
          (findLongestMatch a b alo ahi blo bhi).bs)] =
          (findLongestMatch a b alo ahi blo bhi).bs := by
        simp [blockSum]
      rw [hmid]
      omega

theorem seqRatio_nonneg_le_one (a b : List Char) :
    0 ≤ seqRatio a b ∧ seqRatio a b ≤ 1 := by
  rw [seqRatio]
  by_cases h : a.length + b.length = 0
  · rw [if_pos h]
    norm_num
  · rw [if_neg h]
    have hsum := mbAux_sum_le a b (a.length + b.length + 1) 0 a.length 0 b.length
      (Nat.zero_le _) (Nat.zero_le _)
    have h2 : 2 * blockSum (matchingBlocks a b) ≤ a.length + b.length := by
      rw [matchingBlocks]
      omega
    have hcast : (2 * (blockSum (matchingBlocks a b)) : Int) =
        ((2 * blockSum (matchingBlocks a b) : Nat) : Int) := by
      push_cast
      ring
    rw [hcast]
    exact ⟨mkRatNat_nonneg _ _, mkRatNat_le_one h2 (by omega)⟩

theorem c6aux_exact (l r : Value) (ctx : Option PairCtx) (params : Dict) :
    ∃ s d, cmp_exact l r ctx params = .ok (s, d) ∧ 0 ≤ s ∧ s ≤ 1 ∧
      ((l = .vnone ∨ r = .vnone) → s = 0) := by
  by_cases h : l = r ∧ l ≠ .vnone
  · refine ⟨1, [("match", .vbool true)], ?_, by norm_num, le_refl 1, ?_⟩
    · simp only [cmp_exact, if_pos h]
    · rintro (hc | hc)
      · exact absurd hc h.2
      · exact absurd (h.1.trans hc) h.2
  · exact ⟨0, [("match", .vbool false)], by simp only [cmp_exact, if_neg h],
      le_refl 0, by norm_num, fun _ => rfl⟩

theorem c6aux_icase (l r : Value) (ctx : Option PairCtx) (params : Dict) :
    ∃ s d, cmp_icase_exact l r ctx params = .ok (s, d) ∧ 0 ≤ s ∧ s ≤ 1 ∧
      ((normalize_text l true = none ∨ normalize_text r true = none) → s = 0) := by
  cases hnl : normalize_text l true with
  | none =>
    exact ⟨0, [("reason", .vstr "missing")], by simp only [cmp_icase_exact, hnl],
      le_refl 0, by norm_num, fun _ => rfl⟩
  | some li =>
    cases hnr : normalize_text r true with
    | none =>
      exact ⟨0, [("reason", .vstr "missing")],
        by simp only [cmp_icase_exact, hnl, hnr], le_refl 0, by norm_num, fun _ => rfl⟩
    | some ri =>
      by_cases he : li = ri
      · refine ⟨1, [("match", .vbool true)], ?_, by norm_num, le_refl 1, ?_⟩
        · simp only [cmp_icase_exact, hnl, hnr, if_pos he]
        · rintro (hc | hc) <;> simp at hc
      · exact ⟨0, [("match", .vbool false)],
          by simp only [cmp_icase_exact, hnl, hnr, if_neg he], le_refl 0, by norm_num,
          fun _ => rfl⟩

theorem c6aux_ratio (l r : Value) (ctx : Option PairCtx) (params : Dict) :
    ∃ s d, cmp_ratio l r ctx params = .ok (s, d) ∧ 0 ≤ s ∧ s ≤ 1 ∧
      ((normalize_text l (pyBool (dictGetD params "case_insensitive" (.vbool true))) =
          none ∨
        normalize_text r (pyBool (dictGetD params "case_insensitive" (.vbool true))) =
          none) → s = 0) := by
  cases hnl : normalize_text l (pyBool (dictGetD params "case_insensitive" (.vbool true)))
      with
  | none =>
    exact ⟨0, [("reason", .vstr "missing")], by simp only [cmp_ratio, hnl],
      le_refl 0, by norm_num, fun _ => rfl⟩
  | some li =>
    cases hnr : normalize_text r
        (pyBool (dictGetD params "case_insensitive" (.vbool true))) with
    | none =>
      exact ⟨0, [("reason", .vstr "missing")], by simp only [cmp_ratio, hnl, hnr],
        le_refl 0, by norm_num, fun _ => rfl⟩
    | some ri =>
      obtain ⟨hr0, hr1⟩ := seqRatio_nonneg_le_one li.data ri.data
      refine ⟨seqRatio li.data ri.data, [("ratio", .vfloat (seqRatio li.data ri.data))],
        ?_, hr0, hr1, ?_⟩
      · simp only [cmp_ratio, hnl, hnr]
      · rintro (hc | hc) <;> simp at hc

theorem c6aux_jaccard (l r : Value) (ctx : Option PairCtx) (params : Dict)
    (mtl : Int)
    (hmtl : pyIntE (dictGetD params "min_token_len" (.vint 2)) = .ok mtl) :
    ∃ s d, cmp_jaccard l r ctx params = .ok (s, d) ∧ 0 ≤ s ∧ s ≤ 1 ∧
      ((normalize_text l (pyBool (dictGetD params "case_insensitive" (.vbool true))) =
          none ∨
        normalize_text r (pyBool (dictGetD params "case_insensitive" (.vbool true))) =
          none) → s = 0) ∧
      (∀ nl nr,
        normalize_text l (pyBool (dictGetD params "case_insensitive" (.vbool true))) =
          some nl →
        normalize_text r (pyBool (dictGetD params "case_insensitive" (.vbool true))) =
          some nr →
        tokensOf nl mtl = [] → tokensOf nr mtl = [] → s = 0) := by
  cases hnl : normalize_text l (pyBool (dictGetD params "case_insensitive" (.vbool true)))
      with
  | none =>
    refine ⟨0, [("reason", .vstr "missing")], ?_, le_refl 0, by norm_num,
      fun _ => rfl, fun nl nr h1 _ _ _ => by simp at h1⟩
    simp only [cmp_jaccard, hmtl, hnl]
  | some li =>
    cases hnr : normalize_text r
        (pyBool (dictGetD params "case_insensitive" (.vbool true))) with
    | none =>
      refine ⟨0, [("reason", .vstr "missing")], ?_, le_refl 0, by norm_num,
        fun _ => rfl, fun nl nr _ h2 _ _ => by simp at h2⟩
      simp only [cmp_jaccard, hmtl, hnl, hnr]
    | some ri =>
      by_cases htok : tokensOf li mtl = [] ∧ tokensOf ri mtl = []
      · refine ⟨0, [("reason", .vstr "no_tokens")], ?_, le_refl 0, by norm_num,
          fun _ => rfl, fun _ _ _ _ _ _ => rfl⟩
        simp only [cmp_jaccard, hmtl, hnl, hnr, if_pos htok]
      · have hle : ((tokensOf li mtl).filter
              (fun t => decide (t ∈ tokensOf ri mtl))).length ≤
            (tokensOf li mtl ++ (tokensOf ri mtl).filter
              (fun t => decide (t ∉ tokensOf li mtl))).length := by
          rw [List.length_append]
          have := List.length_filter_le (fun t => decide (t ∈ tokensOf ri mtl))
            (tokensOf li mtl)
          omega
        have hpos : 0 < (tokensOf li mtl ++ (tokensOf ri mtl).filter
            (fun t => decide (t ∉ tokensOf li mtl))).length := by
          rw [List.length_append]
          by_cases hl0 : tokensOf li mtl = []
          · have hr0 : tokensOf ri mtl ≠ [] := fun hr => htok ⟨hl0, hr⟩
            have hfe : (tokensOf ri mtl).filter
                (fun t => decide (t ∉ tokensOf li mtl)) = tokensOf ri mtl := by
              rw [hl0]
              simp
            rw [hfe]
            have := List.length_pos.mpr hr0
            omega
          · have := List.length_pos.mpr hl0
            omega
        refine ⟨mkRat ((((tokensOf li mtl).filter
              (fun t => decide (t ∈ tokensOf ri mtl))).length : Int))
            ((tokensOf li mtl ++ (tokensOf ri mtl).filter
              (fun t => decide (t ∉ tokensOf li mtl))).length),
          [("intersection", .vstrlist (List.mergeSort ((tokensOf li mtl).filter
              (fun t => decide (t ∈ tokensOf ri mtl))) (fun a b => decide (a ≤ b)))),
           ("union_size", .vint (((tokensOf li mtl ++ (tokensOf ri mtl).filter
              (fun t => decide (t ∉ tokensOf li mtl))).length : Int)))],
          ?_, mkRatNat_nonneg _ _, mkRatNat_le_one hle hpos,
          fun hc => by rcases hc with hc | hc <;> simp at hc, ?_⟩
        · simp only [cmp_jaccard, hmtl, hnl, hnr, if_neg htok]
        · intro nl nr h1 h2 h3 h4
          injection h1 with e1
          injection h2 with e2
          subst e1
          subst e2
          exact absurd ⟨h3, h4⟩ htok

theorem c6aux_contains (l r : Value) (ctx : Option PairCtx) (params : Dict) :
    ∃ s d, cmp_contains l r ctx params = .ok (s, d) ∧ 0 ≤ s ∧ s ≤ 1 ∧
      ((normalize_text l (pyBool (dictGetD params "case_insensitive" (.vbool true))) =
          none ∨
        normalize_text r (pyBool (dictGetD params "case_insensitive" (.vbool true))) =
          none) → s = 0) ∧
      (pyStr (dictGetD params "direction" (.vstr "left_in_right")) ≠ "left_in_right" →
        pyStr (dictGetD params "direction" (.vstr "left_in_right")) ≠ "right_in_left" →
        s = 0) := by
  cases hnl : normalize_text l (pyBool (dictGetD params "case_insensitive" (.vbool true)))
      with
  | none =>
    refine ⟨0, [("reason", .vstr "missing")], ?_, le_refl 0, by norm_num,
      fun _ => rfl, fun _ _ => rfl⟩
    simp only [cmp_contains, hnl]
  | some li =>
    cases hnr : normalize_text r
        (pyBool (dictGetD params "case_insensitive" (.vbool true))) with
    | none =>
      refine ⟨0, [("reason", .vstr "missing")], ?_, le_refl 0, by norm_num,
        fun _ => rfl, fun _ _ => rfl⟩
      simp only [cmp_contains, hnl, hnr]
    | some ri =>
      by_cases hd1 : pyStr (dictGetD params "direction" (.vstr "left_in_right")) =
          "left_in_right"
      · refine ⟨if containsChars li.data ri.data then 1 else 0,
          [("found", .vbool (containsChars li.data ri.data)),
           ("direction", .vstr (pyStr (dictGetD params "direction"
              (.vstr "left_in_right"))))],
          ?_, by split <;> norm_num, by split <;> norm_num,
          fun hc => by rcases hc with hc | hc <;> simp at hc,
          fun h1 _ => absurd hd1 h1⟩
        simp only [cmp_contains, hnl, hnr, if_pos hd1]
      · by_cases hd2 : pyStr (dictGetD params "direction" (.vstr "left_in_right")) =
            "right_in_left"
        · refine ⟨if containsChars ri.data li.data then 1 else 0,
            [("found", .vbool (containsChars ri.data li.data)),
             ("direction", .vstr (pyStr (dictGetD params "direction"
                (.vstr "left_in_right"))))],
            ?_, by split <;> norm_num, by split <;> norm_num,
            fun hc => by rcases hc with hc | hc <;> simp at hc,
            fun _ h2 => absurd hd2 h2⟩
          simp only [cmp_contains, hnl, hnr, if_neg hd1, if_pos hd2]
        · refine ⟨0, [("reason", .vstr "bad_direction"),
            ("direction", .vstr (pyStr (dictGetD params "direction"
               (.vstr "left_in_right"))))],
            ?_, le_refl 0, by norm_num, fun _ => rfl, fun _ _ => rfl⟩
          simp only [cmp_contains, hnl, hnr, if_neg hd1, if_neg hd2]

theorem c6aux_numeric (l r : Value) (ctx : Option PairCtx) (params : Dict)
    (md : ℚ)
    (hmd : pyFloatE (dictGetD params "max_distance" (.vfloat 1)) = .ok md)
    (hpos : 0 < md) :
    ∃ s d, cmp_numeric_distance l r ctx params = .ok (s, d) ∧ 0 ≤ s ∧ s ≤ 1 ∧
      ((safe_float l = none ∨ safe_float r = none) → s = 0) := by
  cases hsl : safe_float l with
  | none =>
    refine ⟨0, [("reason", .vstr "not_numeric")], ?_, le_refl 0, by norm_num,
      fun _ => rfl⟩
    simp only [cmp_numeric_distance, hmd, hsl]
  | some lf =>
    cases hsr : safe_float r with
    | none =>
      refine ⟨0, [("reason", .vstr "not_numeric")], ?_, le_refl 0, by norm_num,
        fun _ => rfl⟩
      simp only [cmp_numeric_distance, hmd, hsl, hsr]
    | some rf =>
      refine ⟨pymax0 (qsub 1 (qdiv (qabs (qsub lf rf)) md)),
        [("difference", .vfloat (qabs (qsub lf rf))), ("max_distance", .vfloat md)],
        ?_, ?_, ?_, fun hc => by rcases hc with hc | hc <;> simp at hc⟩
      · simp only [cmp_numeric_distance, hmd, hsl, hsr, if_neg hpos.ne']
      · rw [pymax0_eq]
        exact le_max_left 0 _
      · rw [pymax0_eq, qsub_eq, qdiv_eq, qabs_eq, qsub_eq]
        exact max_le (by norm_num)
          (sub_le_self 1 (div_nonneg (abs_nonneg _) hpos.le))

theorem c6aux_date (l r : Value) (ctx : Option PairCtx) (params : Dict)
    (dm : Int)
    (hdm : pyIntE (dictGetD params "max_days" (.vint 1)) = .ok dm)
    (hpos : 0 < dm) :
    ∃ s d, cmp_date_distance_days l r ctx params = .ok (s, d) ∧ 0 ≤ s ∧ s ≤ 1 ∧
      ((parse_date l = none ∨ parse_date r = none) → s = 0) := by
  cases hsl : parse_date l with
  | none =>
    refine ⟨0, [("reason", .vstr "not_date")], ?_, le_refl 0, by norm_num,
      fun _ => rfl⟩
    simp only [cmp_date_distance_days, hdm, hsl]
  | some ld =>
    cases hsr : parse_date r with
    | none =>
      refine ⟨0, [("reason", .vstr "not_date")], ?_, le_refl 0, by norm_num,
        fun _ => rfl⟩
      simp only [cmp_date_distance_days, hdm, hsl, hsr]
    | some rd =>
      refine ⟨pymax0 (qsub 1 (qdiv (mkRat (|dateOrdinal ld - dateOrdinal rd|) 1)
          (mkRat dm 1))),
        [("days", .vint (|dateOrdinal ld - dateOrdinal rd|)), ("max_days", .vint dm)],
        ?_, ?_, ?_, fun hc => by rcases hc with hc | hc <;> simp at hc⟩
      · simp only [cmp_date_distance_days, hdm, hsl, hsr, if_neg hpos.ne']
      · rw [pymax0_eq]
        exact le_max_left 0 _
      · rw [pymax0_eq, qsub_eq, qdiv_eq, Rat.mkRat_eq_div, Rat.mkRat_eq_div]
        refine max_le (by norm_num) (sub_le_self 1 (div_nonneg ?_ ?_))
        · have : (0 : Int) ≤ |dateOrdinal ld - dateOrdinal rd| := abs_nonneg _
          positivity
        · have hq : (0 : ℚ) < (dm : ℚ) / ((1 : Int) : ℚ) := by
            rw [Int.cast_one, div_one]
            exact_mod_cast hpos
          exact hq.le

/-- C6 (amended): every built-in comparator, on arbitrary input values and any
parameter mapping whose relevant numeric parameters are well-formed
(`max_distance` parseable and positive, `max_days` parseable and positive,
`min_token_len` parseable), returns `.ok` with a score in `[0, 1]`, and
returns exactly `0` on missing or invalid input (null values, normalization
failure, unparseable numbers or dates, empty token sets, unknown containment
direction).  The well-formedness hypotheses are necessary: the counterexample
theorem shows that arbitrary parameter mappings can raise or push the score
above `1`. -/
theorem c6_comparators_bounded_and_graceful
    (l r : Value) (ctx : Option PairCtx) (params : Dict)
    (mtl : Int) (md : ℚ) (dm : Int)
    (hmtl : pyIntE (dictGetD params "min_token_len" (.vint 2)) = .ok mtl)
    (hmd : pyFloatE (dictGetD params "max_distance" (.vfloat 1)) = .ok md)
    (hmdpos : 0 < md)
    (hdm : pyIntE (dictGetD params "max_days" (.vint 1)) = .ok dm)
    (hdmpos : 0 < dm) :
    (∃ s d, cmp_exact l r ctx params = .ok (s, d) ∧ 0 ≤ s ∧ s ≤ 1 ∧
      ((l = .vnone ∨ r = .vnone) → s = 0)) ∧
    (∃ s d, cmp_icase_exact l r ctx params = .ok (s, d) ∧ 0 ≤ s ∧ s ≤ 1 ∧
      ((normalize_text l true = none ∨ normalize_text r true = none) → s = 0)) ∧
    (∃ s d, cmp_ratio l r ctx params = .ok (s, d) ∧ 0 ≤ s ∧ s ≤ 1 ∧
      ((normalize_text l (pyBool (dictGetD params "case_insensitive" (.vbool true))) =
          none ∨
        normalize_text r (pyBool (dictGetD params "case_insensitive" (.vbool true))) =
          none) → s = 0)) ∧
    (∃ s d, cmp_jaccard l r ctx params = .ok (s, d) ∧ 0 ≤ s ∧ s ≤ 1 ∧
      ((normalize_text l (pyBool (dictGetD params "case_insensitive" (.vbool true))) =
          none ∨
        normalize_text r (pyBool (dictGetD params "case_insensitive" (.vbool true))) =
          none) → s = 0) ∧
      (∀ nl nr,
        normalize_text l (pyBool (dictGetD params "case_insensitive" (.vbool true))) =
          some nl →
        normalize_text r (pyBool (dictGetD params "case_insensitive" (.vbool true))) =
          some nr →
        tokensOf nl mtl = [] → tokensOf nr mtl = [] → s = 0)) ∧
    (∃ s d, cmp_contains l r ctx params = .ok (s, d) ∧ 0 ≤ s ∧ s ≤ 1 ∧
      ((normalize_text l (pyBool (dictGetD params "case_insensitive" (.vbool true))) =
          none ∨
        normalize_text r (pyBool (dictGetD params "case_insensitive" (.vbool true))) =
          none) → s = 0) ∧
      (pyStr (dictGetD params "direction" (.vstr "left_in_right")) ≠ "left_in_right" →
        pyStr (dictGetD params "direction" (.vstr "left_in_right")) ≠ "right_in_left" →
        s = 0)) ∧
    (∃ s d, cmp_numeric_distance l r ctx params = .ok (s, d) ∧ 0 ≤ s ∧ s ≤ 1 ∧
      ((safe_float l = none ∨ safe_float r = none) → s = 0)) ∧
    (∃ s d, cmp_date_distance_days l r ctx params = .ok (s, d) ∧ 0 ≤ s ∧ s ≤ 1 ∧
      ((parse_date l = none ∨ parse_date r = none) → s = 0)) :=
  ⟨c6aux_exact l r ctx params, c6aux_icase l r ctx params, c6aux_ratio l r ctx params,
    c6aux_jaccard l r ctx params mtl hmtl, c6aux_contains l r ctx params,
    c6aux_numeric l r ctx params md hmd hmdpos, c6aux_date l r ctx params dm hdm hdmpos⟩

/-- Witness for C6 at `l = "ab"`, `r = None`, empty params (so
`min_token_len = 2`, `max_distance = 1.0`, `max_days = 1`). -/
theorem c6_comparators_bounded_and_graceful_witness :
    pyIntE (dictGetD [] "min_token_len" (.vint 2)) = .ok 2 ∧
    pyFloatE (dictGetD [] "max_distance" (.vfloat 1)) = .ok 1 ∧
    (0 : ℚ) < 1 ∧
    pyIntE (dictGetD [] "max_days" (.vint 1)) = .ok 1 ∧
    (0 : Int) < 1 ∧
    ((∃ s d, cmp_exact (.vstr "ab") .vnone none [] = .ok (s, d) ∧ 0 ≤ s ∧ s ≤ 1 ∧
      ((Value.vstr "ab" = .vnone ∨ Value.vnone = .vnone) → s = 0)) ∧
    (∃ s d, cmp_icase_exact (.vstr "ab") .vnone none [] = .ok (s, d) ∧ 0 ≤ s ∧ s ≤ 1 ∧
      ((normalize_text (.vstr "ab") true = none ∨ normalize_text .vnone true = none) →
        s = 0)) ∧
    (∃ s d, cmp_ratio (.vstr "ab") .vnone none [] = .ok (s, d) ∧ 0 ≤ s ∧ s ≤ 1 ∧
      ((normalize_text (.vstr "ab")
          (pyBool (dictGetD [] "case_insensitive" (.vbool true))) = none ∨
        normalize_text .vnone
          (pyBool (dictGetD [] "case_insensitive" (.vbool true))) = none) → s = 0)) ∧
    (∃ s d, cmp_jaccard (.vstr "ab") .vnone none [] = .ok (s, d) ∧ 0 ≤ s ∧ s ≤ 1 ∧
      ((normalize_text (.vstr "ab")
          (pyBool (dictGetD [] "case_insensitive" (.vbool true))) = none ∨
        normalize_text .vnone
          (pyBool (dictGetD [] "case_insensitive" (.vbool true))) = none) → s = 0) ∧
      (∀ nl nr,
        normalize_text (.vstr "ab")
          (pyBool (dictGetD [] "case_insensitive" (.vbool true))) = some nl →
        normalize_text .vnone
          (pyBool (dictGetD [] "case_insensitive" (.vbool true))) = some nr →
        tokensOf nl 2 = [] → tokensOf nr 2 = [] → s = 0)) ∧
    (∃ s d, cmp_contains (.vstr "ab") .vnone none [] = .ok (s, d) ∧ 0 ≤ s ∧ s ≤ 1 ∧
      ((normalize_text (.vstr "ab")
          (pyBool (dictGetD [] "case_insensitive" (.vbool true))) = none ∨
        normalize_text .vnone
          (pyBool (dictGetD [] "case_insensitive" (.vbool true))) = none) → s = 0) ∧
      (pyStr (dictGetD [] "direction" (.vstr "left_in_right")) ≠ "left_in_right" →
        pyStr (dictGetD [] "direction" (.vstr "left_in_right")) ≠ "right_in_left" →
        s = 0)) ∧
    (∃ s d, cmp_numeric_distance (.vstr "ab") .vnone none [] = .ok (s, d) ∧
      0 ≤ s ∧ s ≤ 1 ∧
      ((safe_float (.vstr "ab") = none ∨ safe_float .vnone = none) → s = 0)) ∧
    (∃ s d, cmp_date_distance_days (.vstr "ab") .vnone none [] = .ok (s, d) ∧
      0 ≤ s ∧ s ≤ 1 ∧
      ((parse_date (.vstr "ab") = none ∨ parse_date .vnone = none) → s = 0))) :=
  ⟨rfl, rfl, by norm_num, rfl, by norm_num,
    c6_comparators_bounded_and_graceful (.vstr "ab") .vnone none [] 2 1 1
      rfl rfl (by norm_num) rfl (by norm_num)⟩

theorem diagRun_lt (l : List Char) (alo x : Nat) (h : x < alo) :
    diagRun l alo x = 0 := by
  cases x with
  | zero =>
    rw [diagRun, if_neg]
    rintro ⟨h0, _⟩
    omega
  | succ m =>
    rw [diagRun, if_neg]
    rintro ⟨h0, _⟩
    omega

theorem diagRun_succ_of_valid (l : List Char) (alo x : Nat) (h1 : alo ≤ x)
    (h2 : x ∈ b2jOf l (l.getD x ' ')) :
    diagRun l alo x = (if x = 0 then 0 else diagRun l alo (x - 1)) + 1 := by
  cases x with
  | zero =>
    rw [diagRun, if_pos ⟨Nat.le_zero.mp h1, h2⟩, if_pos rfl]
  | succ m =>
    rw [diagRun, if_pos ⟨h1, h2⟩, if_neg (Nat.succ_ne_zero m)]
    rfl

theorem diagRun_zero_of_not_mem (l : List Char) (alo x : Nat)
    (h : x ∉ b2jOf l (l.getD x ' ')) : diagRun l alo x = 0 := by
  cases x with
  | zero =>
    rw [diagRun, if_neg]
    rintro ⟨_, hm⟩
    exact h hm
  | succ m =>
    rw [diagRun, if_neg]
    rintro ⟨_, hm⟩
    exact h hm

theorem mem_posList_iff (l : List Char) (c : Char) (j : Nat) :
    j ∈ posList l c ↔ j < l.length ∧ l.get? j = some c := by
  simp [posList, List.mem_filter, List.mem_range]

theorem b2j_mem (l : List Char) (c : Char) (j : Nat) (h : j ∈ b2jOf l c) :
    j < l.length ∧ l.get? j = some c := by
  rw [b2jOf] at h
  split at h
  · simp at h
  · exact (mem_posList_iff l c j).mp h

theorem get?_eq_some_getD (l : List Char) (i : Nat) (h : i < l.length) :
    l.get? i = some (l.getD i ' ') := by
  rw [List.get?_eq_getElem?, List.getElem?_eq_getElem h, List.getD_eq_getElem?_getD,
    List.getElem?_eq_getElem h]
  rfl

theorem b2j_self (l : List Char) (i j : Nat) (hi : i < l.length)
    (h : j ∈ b2jOf l (l.getD i ' ')) : i ∈ b2jOf l (l.getD i ' ') := by
  rw [b2jOf] at h ⊢
  split at h
  · simp at h
  · rename_i hpop
    rw [if_neg hpop, mem_posList_iff]
    exact ⟨hi, get?_eq_some_getD l i hi⟩

theorem b2j_char (l : List Char) (c : Char) (j : Nat) (h : j ∈ b2jOf l c) :
    l.getD j ' ' = c := by
  obtain ⟨hlt, hget⟩ := b2j_mem l c j h
  have := get?_eq_some_getD l j hlt
  rw [this] at hget
  exact Option.some.inj hget

theorem b2j_transfer (l : List Char) (i j : Nat)
    (h : j ∈ b2jOf l (l.getD i ' ')) : j ∈ b2jOf l (l.getD j ' ') := by
  rw [b2j_char l (l.getD i ' ') j h]
  exact h

theorem chainVal_le_diagRun (l : List Char) (alo ahi : Nat) :
    ∀ (t j : Nat), chainVal l alo ahi t j ≤ diagRun l alo j := by
  intro t
  induction t with
  | zero =>
    intro j
    rw [chainVal]
    exact Nat.zero_le _
  | succ n ih =>
    intro j
    rw [chainVal]
    split
    · rename_i hc
      obtain ⟨hmem, halo, _⟩ := hc
      rw [diagRun_succ_of_valid l alo j halo (b2j_transfer l (alo + n) j hmem)]
      cases j with
      | zero => simp
      | succ m =>
        rw [if_neg (Nat.succ_ne_zero m), if_neg (Nat.succ_ne_zero m)]
        simp only [Nat.add_sub_cancel]
        have := ih m
        omega
    · exact Nat.zero_le _

theorem chainVal_le_diagRun_row (l : List Char) (alo ahi : Nat)
    (hlen : ahi ≤ l.length) :
    ∀ (t j : Nat), alo + t < ahi →
      chainVal l alo ahi (t + 1) j ≤ diagRun l alo (alo + t) := by
  intro t
  induction t with
  | zero =>
    intro j hrow
    rw [chainVal]
    split
    · rename_i hc
      obtain ⟨hmem, _, _⟩ := hc
      have hself : (alo + 0) ∈ b2jOf l (l.getD (alo + 0) ' ') :=
        b2j_self l (alo + 0) j (by omega) hmem
      rw [diagRun_succ_of_valid l alo (alo + 0) (by omega) hself]
      have h0 : (if j = 0 then 0 else chainVal l alo ahi 0 (j - 1)) = 0 := by
        split
        · rfl
        · rw [chainVal]
      omega
    · exact Nat.zero_le _
  | succ n ih =>
    intro j hrow
    rw [chainVal]
    split
    · rename_i hc
      obtain ⟨hmem, _, _⟩ := hc
      have hself : (alo + (n + 1)) ∈ b2jOf l (l.getD (alo + (n + 1)) ' ') :=
        b2j_self l (alo + (n + 1)) j (by omega) hmem
      rw [diagRun_succ_of_valid l alo (alo + (n + 1)) (by omega) hself,
        if_neg (by omega : ¬alo + (n + 1) = 0)]
      have hd : diagRun l alo (alo + (n + 1) - 1) = diagRun l alo (alo + n) := by
        have e : alo + (n + 1) - 1 = alo + n := by omega
        rw [e]
      rw [hd]
      have hstep : (if j = 0 then 0 else chainVal l alo ahi (n + 1) (j - 1)) ≤
          diagRun l alo (alo + n) := by
        split
        · exact Nat.zero_le _
        · exact ih (j - 1) (by omega)
      omega
    · exact Nat.zero_le _

theorem chainVal_diag_exact (l : List Char) (alo ahi : Nat)
    (hlen : ahi ≤ l.length) :
    ∀ (t : Nat), alo + t < ahi →
      chainVal l alo ahi (t + 1) (alo + t) = diagRun l alo (alo + t) := by
  intro t
  induction t with
  | zero =>
    intro hrow
    by_cases hmem : (alo + 0) ∈ b2jOf l (l.getD (alo + 0) ' ')
    · rw [chainVal, if_pos ⟨hmem, by omega, hrow⟩,
        diagRun_succ_of_valid l alo (alo + 0) (by omega) hmem]
      have h0 : (if alo + 0 = 0 then 0 else chainVal l alo ahi 0 (alo + 0 - 1)) = 0 := by
        split
        · rfl
        · rw [chainVal]
      have h1 : (if alo + 0 = 0 then 0 else diagRun l alo (alo + 0 - 1)) = 0 := by
        split
        · rfl
        · exact diagRun_lt l alo (alo + 0 - 1) (by omega)
      omega
    · rw [chainVal, if_neg (fun hc => hmem hc.1),
        diagRun_zero_of_not_mem l alo (alo + 0) hmem]
  | succ n ih =>
    intro hrow
    by_cases hmem : (alo + (n + 1)) ∈ b2jOf l (l.getD (alo + (n + 1)) ' ')
    · rw [chainVal, if_pos ⟨hmem, by omega, hrow⟩,
        diagRun_succ_of_valid l alo (alo + (n + 1)) (by omega) hmem,
        if_neg (by omega : ¬alo + (n + 1) = 0),
        if_neg (by omega : ¬alo + (n + 1) = 0)]
      have hd : alo + (n + 1) - 1 = alo + n := by omega
      rw [hd, ih (by omega)]
    · rw [chainVal, if_neg (fun hc => hmem hc.1),
        diagRun_zero_of_not_mem l alo (alo + (n + 1)) hmem]

theorem flmInner_diag (l : List Char) (alo ahi : Nat) (old : Nat → Nat) (i : Nat)
    (hialo : alo ≤ i) (hiahi : i < ahi)
    (h1 : ∀ x, old x ≤ diagRun l alo x)
    (hk : i ∈ b2jOf l (l.getD i ' ') →
      diagRun l alo i ≤ (if i = 0 then 0 else old (i - 1)) + 1)
    (hkle : ∀ j, j ∈ b2jOf l (l.getD i ' ') → i < j → j < ahi →
      (if j = 0 then 0 else old (j - 1)) + 1 ≤ diagRun l alo i) :
    ∀ (js : List Nat) (newj : Nat → Nat) (best : FlmBest),
      List.Pairwise (fun a b => a < b) js →
      (∀ j, j ∈ js → j ∈ b2jOf l (l.getD i ' ')) →
      best.bi = best.bj →
      ((i ∈ js ∧ ∀ x, x < i → diagRun l alo x ≤ best.bs) ∨
        (∀ x, x < i + 1 → diagRun l alo x ≤ best.bs)) →
      (∀ x, (flmInner old i alo ahi js newj best).1 x =
        if x ∈ js ∧ alo ≤ x ∧ x < ahi then (if x = 0 then 0 else old (x - 1)) + 1
        else newj x) ∧
      (flmInner old i alo ahi js newj best).2.bi =
        (flmInner old i alo ahi js newj best).2.bj ∧
      (∀ x, x < i + 1 →
        diagRun l alo x ≤ (flmInner old i alo ahi js newj best).2.bs) := by
  intro js
  induction js with
  | nil =>
    intro newj best _ _ hb1 hb3
    refine ⟨?_, hb1, ?_⟩
    · intro x
      rw [flmInner, if_neg (fun hc => absurd hc.1 (List.not_mem_nil x))]
    · intro x hx
      rcases hb3 with ⟨hmem, _⟩ | hb
      · exact absurd hmem (List.not_mem_nil i)
      · exact hb x hx
  | cons j js' ih =>
    intro newj best hasc hsub hb1 hb3
    have hasc' := (List.pairwise_cons.mp hasc).2
    have hjlt := (List.pairwise_cons.mp hasc).1
    have hjns : j ∉ js' := fun hmem => absurd (hjlt j hmem) (lt_irrefl j)
    rw [flmInner]
    by_cases hjalo : j < alo
    · rw [if_pos hjalo]
      have hneij : i ≠ j := by omega
      have hb3' : (i ∈ js' ∧ ∀ x, x < i → diagRun l alo x ≤ best.bs) ∨
          (∀ x, x < i + 1 → diagRun l alo x ≤ best.bs) := by
        rcases hb3 with ⟨hmem, hall⟩ | hb
        · exact Or.inl ⟨(List.mem_cons.mp hmem).resolve_left hneij, hall⟩
        · exact Or.inr hb
      obtain ⟨r1, r2, r3⟩ := ih newj best hasc'
        (fun a ha => hsub a (List.mem_cons_of_mem j ha)) hb1 hb3'
      refine ⟨?_, r2, r3⟩
      intro x
      rw [r1 x]
      by_cases hx : x ∈ js' ∧ alo ≤ x ∧ x < ahi
      · rw [if_pos hx, if_pos (show x ∈ j :: js' ∧ alo ≤ x ∧ x < ahi from
          ⟨List.mem_cons_of_mem j hx.1, hx.2⟩)]
      · rw [if_neg hx]
        by_cases hxj : x = j
        · subst hxj
          rw [if_neg (fun hc => absurd hc.2.1 (Nat.not_le.mpr hjalo))]
        · rw [if_neg (fun hc => hx ⟨(List.mem_cons.mp hc.1).resolve_left hxj, hc.2⟩)]
    · by_cases hjahi : ahi ≤ j
      · rw [if_neg hjalo, if_pos hjahi]
        refine ⟨?_, hb1, ?_⟩
        · intro x
          by_cases hx : x ∈ j :: js' ∧ alo ≤ x ∧ x < ahi
          · exfalso
            obtain ⟨hm1, _, hm3⟩ := hx
            rcases List.mem_cons.mp hm1 with he | hm
            · omega
            · have := hjlt x hm
              omega
          · rw [if_neg hx]
        · intro x hx
          rcases hb3 with ⟨hmem, _⟩ | hb
          · exfalso
            rcases List.mem_cons.mp hmem with he | hm
            · omega
            · have := hjlt i hm
              omega
          · exact hb x hx
      · rw [if_neg hjalo, if_neg hjahi]
        dsimp only
        have halo' : alo ≤ j := Nat.not_lt.mp hjalo
        have hahi' : j < ahi := Nat.not_le.mp hjahi
        have hmemj : j ∈ b2jOf l (l.getD i ' ') := hsub j (List.mem_cons_self j js')
        have hcolmem : j ∈ b2jOf l (l.getD j ' ') := b2j_transfer l i j hmemj
        have hdj : diagRun l alo j = (if j = 0 then 0 else diagRun l alo (j - 1)) + 1 :=
          diagRun_succ_of_valid l alo j halo' hcolmem
        set kv := (if j = 0 then 0 else old (j - 1)) + 1 with hkv
        have hcol : kv ≤ diagRun l alo j := by
          rw [hdj, hkv]
          by_cases hj0 : j = 0
          · rw [if_pos hj0, if_pos hj0]
          · rw [if_neg hj0, if_neg hj0]
            have := h1 (j - 1)
            omega
        set bestF := if best.bs < kv then
          (⟨i + 1 - kv, j + 1 - kv, kv⟩ : FlmBest) else best with hbf
        have hsub' : ∀ a, a ∈ js' → a ∈ b2jOf l (l.getD i ' ') :=
          fun a ha => hsub a (List.mem_cons_of_mem j ha)
        have hprev : ∀ x, x < i → diagRun l alo x ≤ best.bs := by
          intro x hx
          rcases hb3 with ⟨_, hall⟩ | hb
          · exact hall x hx
          · exact hb x (by omega)
        have hmain : (bestF.bi = bestF.bj) ∧
            ((i ∈ js' ∧ ∀ x, x < i → diagRun l alo x ≤ bestF.bs) ∨
              (∀ x, x < i + 1 → diagRun l alo x ≤ bestF.bs)) := by
          rcases Nat.lt_trichotomy j i with hji | hji | hji
          · have hnu : ¬best.bs < kv := by
              have := hprev j hji
              omega
            rw [hbf, if_neg hnu]
            refine ⟨hb1, ?_⟩
            rcases hb3 with ⟨hmem, hall⟩ | hb
            · exact Or.inl ⟨(List.mem_cons.mp hmem).resolve_left (by omega), hall⟩
            · exact Or.inr hb
          · subst hji
            have hdk : diagRun l alo j ≤ kv := hk hcolmem
            by_cases hupd : best.bs < kv
            · rw [hbf, if_pos hupd]
              refine ⟨rfl, Or.inr ?_⟩
              intro x hx
              show diagRun l alo x ≤ kv
              rcases Nat.lt_or_ge x j with hxj | hxj
              · have := hprev x hxj
                omega
              · have hxe : x = j := by omega
                subst hxe
                exact hdk
            · rw [hbf, if_neg hupd]
              refine ⟨hb1, Or.inr ?_⟩
              intro x hx
              rcases Nat.lt_or_ge x j with hxj | hxj
              · exact hprev x hxj
              · have hxe : x = j := by omega
                subst hxe
                omega
          · have hball : ∀ x, x < i + 1 → diagRun l alo x ≤ best.bs := by
              rcases hb3 with ⟨hmem, _⟩ | hb
              · exfalso
                rcases List.mem_cons.mp hmem with he | hm
                · omega
                · have := hjlt i hm
                  omega
              · exact hb
            have hnu : ¬best.bs < kv := by
              have h2 := hkle j hmemj hji hahi'
              have h3 := hball i (by omega)
              rw [hkv]
              omega
            rw [hbf, if_neg hnu]
            exact ⟨hb1, Or.inr hball⟩
        obtain ⟨r1, r2, r3⟩ := ih (fun x => if x = j then kv else newj x) bestF
          hasc' hsub' hmain.1 hmain.2
        refine ⟨?_, r2, r3⟩
        intro x
        rw [r1 x]
        by_cases hx : x ∈ js' ∧ alo ≤ x ∧ x < ahi
        · rw [if_pos hx, if_pos (show x ∈ j :: js' ∧ alo ≤ x ∧ x < ahi from
            ⟨List.mem_cons_of_mem j hx.1, hx.2⟩)]
        · rw [if_neg hx]
          by_cases hxj : x = j
          · subst hxj
            rw [if_pos rfl, if_pos (show x ∈ x :: js' ∧ alo ≤ x ∧ x < ahi from
              ⟨List.mem_cons_self x js', halo', hahi'⟩), hkv]
          · rw [if_neg hxj,
              if_neg (fun hc => hx ⟨(List.mem_cons.mp hc.1).resolve_left hxj, hc.2⟩)]

theorem b2j_pairwise (b : List Char) (c : Char) :
    List.Pairwise (fun x y => x < y) (b2jOf b c) := by
  rw [b2jOf]
  split
  · exact List.Pairwise.nil
  · exact List.Pairwise.sublist (List.filter_sublist _) (List.pairwise_lt_range b.length)

theorem diagRun_zero_le_one (l : List Char) (alo : Nat) : diagRun l alo 0 ≤ 1 := by
  rw [diagRun]
  split
  · exact le_refl 1
  · exact Nat.zero_le 1

theorem flmOuter_diag (l : List Char) (alo ahi : Nat) (hlen : ahi ≤ l.length) :
    ∀ (n t : Nat) (j2l : Nat → Nat) (best : FlmBest),
      alo + t + n ≤ ahi →
      (∀ x, j2l x = chainVal l alo ahi t x) →
      best.bi = best.bj →
      (∀ x, x < alo + t → diagRun l alo x ≤ best.bs) →
      (flmOuter l l alo ahi (List.range' (alo + t) n) j2l best).2.bi =
        (flmOuter l l alo ahi (List.range' (alo + t) n) j2l best).2.bj := by
  intro n
  induction n with
  | zero =>
    intro t j2l best _ _ hb1 _
    exact hb1
  | succ n ih =>
    intro t j2l best hle hj hb1 hbs
    rw [List.range'_succ, flmOuter]
    have hrow : alo + t < ahi := by omega
    have h1 : ∀ x, j2l x ≤ diagRun l alo x := by
      intro x
      rw [hj x]
      exact chainVal_le_diagRun l alo ahi t x
    have hk : (alo + t) ∈ b2jOf l (l.getD (alo + t) ' ') →
        diagRun l alo (alo + t) ≤
          (if alo + t = 0 then 0 else j2l (alo + t - 1)) + 1 := by
      intro hmem
      rw [diagRun_succ_of_valid l alo (alo + t) (by omega) hmem]
      have hcore : (if alo + t = 0 then 0 else diagRun l alo (alo + t - 1)) ≤
          (if alo + t = 0 then 0 else j2l (alo + t - 1)) := by
        by_cases h0 : alo + t = 0
        · rw [if_pos h0, if_pos h0]
        · rw [if_neg h0, if_neg h0, hj (alo + t - 1)]
          cases t with
          | zero =>
            rw [diagRun_lt l alo (alo + 0 - 1) (by omega)]
            exact Nat.zero_le _
          | succ m =>
            have he : alo + (m + 1) - 1 = alo + m := by omega
            rw [he, chainVal_diag_exact l alo ahi hlen m (by omega)]
      omega
    have hkle : ∀ j, j ∈ b2jOf l (l.getD (alo + t) ' ') → alo + t < j → j < ahi →
        (if j = 0 then 0 else j2l (j - 1)) + 1 ≤ diagRun l alo (alo + t) := by
      intro j hmem hij hjahi
      have hj0 : j ≠ 0 := by omega
      rw [if_neg hj0, hj (j - 1)]
      have hcv : chainVal l alo ahi (t + 1) j = chainVal l alo ahi t (j - 1) + 1 := by
        rw [chainVal, if_pos (show j ∈ b2jOf l (l.getD (alo + t) ' ') ∧
            alo ≤ j ∧ j < ahi from ⟨hmem, by omega, hjahi⟩), if_neg hj0]
      rw [← hcv]
      exact chainVal_le_diagRun_row l alo ahi hlen t j hrow
    have hb3 : ((alo + t) ∈ b2jOf l (l.getD (alo + t) ' ') ∧
        ∀ x, x < alo + t → diagRun l alo x ≤ best.bs) ∨
        (∀ x, x < alo + t + 1 → diagRun l alo x ≤ best.bs) := by
      by_cases hmem : (alo + t) ∈ b2jOf l (l.getD (alo + t) ' ')
      · exact Or.inl ⟨hmem, hbs⟩
      · right
        intro x hx
        rcases Nat.lt_or_ge x (alo + t) with h | h
        · exact hbs x h
        · have hxe : x = alo + t := by omega
          subst hxe
          rw [diagRun_zero_of_not_mem l alo (alo + t) hmem]
          exact Nat.zero_le _
    obtain ⟨r1, r2, r3⟩ := flmInner_diag l alo ahi j2l (alo + t) (by omega) hrow h1 hk
      hkle (b2jOf l (l.getD (alo + t) ' ')) (fun _ => 0) best
      (b2j_pairwise l (l.getD (alo + t) ' ')) (fun _ h => h) hb1 hb3
    cases hfl : flmInner j2l (alo + t) alo ahi (b2jOf l (l.getD (alo + t) ' '))
        (fun _ => 0) best with
    | mk newj best' =>
      rw [hfl] at r1 r2 r3
      dsimp only at r1 r2 r3
      dsimp only
      have hnew : ∀ x, newj x = chainVal l alo ahi (t + 1) x := by
        intro x
        rw [r1 x, chainVal]
        by_cases hx : x ∈ b2jOf l (l.getD (alo + t) ' ') ∧ alo ≤ x ∧ x < ahi
        · rw [if_pos hx, if_pos hx]
          by_cases hx0 : x = 0
          · rw [if_pos hx0, if_pos hx0]
          · rw [if_neg hx0, if_neg hx0, hj (x - 1)]
        · rw [if_neg hx, if_neg hx]
      exact ih (t + 1) newj best' (by omega) hnew r2 (fun x hx => r3 x hx)

theorem extendLeft_diag_self (l : List Char) (alo : Nat) :
    ∀ (bi bs : Nat), alo ≤ bi →
      extendLeft l l alo alo bi bi bs = ⟨alo, alo, bs + (bi - alo)⟩ := by
  intro bi
  induction bi with
  | zero =>
    intro bs h
    have h0 : alo = 0 := Nat.le_zero.mp h
    subst h0
    rfl
  | succ m ih =>
    intro bs h
    rw [extendLeft]
    by_cases halo : alo < m + 1
    · rw [if_pos (show alo < m + 1 ∧ alo < m + 1 ∧ l.getD m ' ' = l.getD m ' ' from
        ⟨halo, halo, rfl⟩)]
      rw [ih (bs + 1) (by omega)]
      refine congrArg (fun z => FlmBest.mk alo alo z) ?_
      omega
    · rw [if_neg (fun hc => halo hc.1)]
      have he : alo = m + 1 := by omega
      rw [← he]
      refine congrArg (fun z => FlmBest.mk alo alo z) ?_
      omega

theorem extendRightGo_diag_self (l : List Char) (ahi bi : Nat) :
    ∀ (fuel bs : Nat), bi + bs + fuel = ahi →
      extendRightGo l l ahi ahi bi bi fuel bs = ⟨bi, bi, bs + fuel⟩ := by
  intro fuel
  induction fuel with
  | zero =>
    intro bs _
    rfl
  | succ n ih =>
    intro bs hsum
    rw [extendRightGo]
    rw [if_pos (show bi + bs < ahi ∧ bi + bs < ahi ∧
        l.getD (bi + bs) ' ' = l.getD (bi + bs) ' ' from ⟨by omega, by omega, rfl⟩)]
    rw [ih (bs + 1) (by omega)]
    refine congrArg (fun z => FlmBest.mk bi bi z) ?_
    omega

theorem findLongestMatch_self (l : List Char) (alo ahi : Nat)
    (hab : alo ≤ ahi) (hlen : ahi ≤ l.length) :
    findLongestMatch l l alo ahi alo ahi = ⟨alo, alo, ahi - alo⟩ := by
  rw [findLongestMatch]
  cases hout : flmOuter l l alo ahi (List.range' alo (ahi - alo)) (fun _ => 0)
      ⟨alo, alo, 0⟩ with
  | mk j2l best =>
    have hdiag := flmOuter_diag l alo ahi hlen (ahi - alo) 0 (fun _ => 0)
      ⟨alo, alo, 0⟩ (by omega) (fun x => by rw [chainVal]) rfl
      (fun x hx => by rw [diagRun_lt l alo x (by omega)])
    have hbounds := flmOuter_bounds l l alo ahi alo ahi (ahi - alo) alo (fun _ => 0)
      ⟨alo, alo, 0⟩ (le_refl alo) (by omega) (by intro x; dsimp only; omega)
      (le_refl alo) (by simpa using hab) (le_refl alo) (by simpa using hab)
    have hra : List.range' (alo + 0) (ahi - alo) = List.range' alo (ahi - alo) := by
      rw [Nat.add_zero]
    rw [hra] at hdiag
    rw [hout] at hdiag hbounds
    dsimp only at hdiag hbounds
    obtain ⟨hb1, hb2, _, _⟩ := hbounds
    dsimp only
    rw [← hdiag]
    rw [extendLeft_diag_self l alo best.bi best.bs hb1]
    rw [extendRight]
    dsimp only
    have hfin := extendRightGo_diag_self l ahi alo
      (ahi - (alo + (best.bs + (best.bi - alo)))) (best.bs + (best.bi - alo))
      (by omega)
    rw [hfin]
    refine congrArg (fun z => FlmBest.mk alo alo z) ?_
    omega

theorem matchingBlocks_self (l : List Char) (hne : l ≠ []) :
    matchingBlocks l l = [(0, 0, l.length)] := by
  have hpos : 0 < l.length := List.length_pos.mpr hne
  rw [matchingBlocks, mbAux]
  rw [findLongestMatch_self l 0 l.length (Nat.zero_le _) (le_refl _)]
  dsimp only
  rw [if_neg (by omega : ¬l.length - 0 = 0)]
  rw [if_neg (by omega : ¬(0 < 0 ∧ 0 < 0)), if_neg (by omega : ¬(0 + (l.length - 0) <
    l.length ∧ 0 + (l.length - 0) < l.length))]
  simp

theorem seqRatio_self (l : List Char) : seqRatio l l = 1 := by
  rw [seqRatio]
  by_cases h : l.length + l.length = 0
  · rw [if_pos h]
  · rw [if_neg h]
    have hne : l ≠ [] := by
      intro he
      subst he
      simp at h
    rw [matchingBlocks_self l hne]
    have hbs : blockSum [(0, 0, l.length)] = l.length := by
      simp [blockSum]
    rw [hbs, Rat.mkRat_eq_div]
    have hnum : ((2 * l.length : Int) : ℚ) = 2 * (l.length : ℚ) := by
      push_cast
      ring
    have hden : ((l.length + l.length : Nat) : ℚ) = 2 * (l.length : ℚ) := by
      push_cast
      ring
    rw [hnum, hden]
    have hq : (2 : ℚ) * (l.length : ℚ) ≠ 0 := by
      have : 0 < l.length := List.length_pos.mpr hne
      positivity
    exact div_self hq

/-- C2 (amended, reflexive half): for every input value whose normalization
succeeds, the `ratio` comparator applied to the value and itself (same
parameters) returns score exactly `1.0`; `SequenceMatcher.ratio` on a string
against itself is `1` even under autojunk pruning, because the final
equal-character extension loops ignore popularity.  (The symmetric half of the
original claim is refuted by `c2_ratio_not_symmetric`.) -/
theorem c2_ratio_self_is_one (v : Value) (ctx : Option PairCtx) (params : Dict)
    (a : String)
    (h : normalize_text v (pyBool (dictGetD params "case_insensitive" (.vbool true))) =
      some a) :
    cmp_ratio v v ctx params = .ok (1, [("ratio", .vfloat 1)]) := by
  simp only [cmp_ratio, h, seqRatio_self]

/-- Witness for C2 at the concrete value `"Tide"` (normalizes to `"tide"`). -/
theorem c2_ratio_self_is_one_witness :
    normalize_text (.vstr "Tide")
        (pyBool (dictGetD [] "case_insensitive" (.vbool true))) = some "tide" ∧
    cmp_ratio (.vstr "Tide") (.vstr "Tide") none [] = .ok (1, [("ratio", .vfloat 1)]) :=
  ⟨rfl, c2_ratio_self_is_one (.vstr "Tide") none [] "tide" rfl⟩
